import Mathlib

/-!
# InfiniBand user-memory pinning (`drivers/infiniband/core/umem.c`)

A shallow embedding of `ib_umem_get`, `ib_umem_release`, `__ib_umem_release`,
`ib_umem_find_best_pgsz` and `ib_umem_copy_from`.

Machine words (`unsigned long`, `size_t`, `dma_addr_t`) are natural numbers
reduced modulo `2 ^ 64` wherever the C arithmetic can wrap; `int` values are
integers.  The services the file calls but does not implement (mlock
permission, allocators, the pin service, the scatter-gather append, the DMA
mapping, the scatter copy) are fields of an environment record, so every
theorem quantifies over all of their behaviours.  Each call of such a service
is recorded, in program order, in a list of events.
-/

namespace Umem

/-! ## Constants -/

/-- Modelled from the spec: `BITS_PER_LONG` is not defined in umem.c; a 64-bit
machine word is taken. -/
def BITS_PER_LONG : Nat := 64

/-- Number of values of an `unsigned long` / `size_t` / `dma_addr_t`. -/
def WORD : Nat := 2 ^ 64

/-- Modelled from the spec: `PAGE_SHIFT` is not defined in umem.c; the spec's 4K
page is taken. -/
def PAGE_SHIFT : Nat := 12

/-- Modelled from the spec: `PAGE_SIZE` is `1 << PAGE_SHIFT`. -/
def PAGE_SIZE : Nat := 4096

/-- Modelled from the spec: `PAGE_MASK` is `~(PAGE_SIZE - 1)` as a machine word. -/
def PAGE_MASK : Nat := 2 ^ 64 - 4096

/-- Modelled from the spec: `UINT_MAX`, the fixed maximum representable page count. -/
def UINT_MAX : Nat := 4294967295

/-- Modelled from the spec: the errno values are not defined in umem.c; the
Linux values are taken.  `EPERM`: permission denied. -/
def EPERM : Int := 1

/-- Out of memory, also returned when the lock limit is exceeded. -/
def ENOMEM : Int := 12

/-- Bad address, a value the pin service may report. -/
def EFAULT : Int := 14

/-- Invalid argument. -/
def EINVAL : Int := 22

/-- Operation not supported. -/
def EOPNOTSUPP : Int := 95

/-- Modelled from the spec: `PAGE_ALIGN(x)`, the machine word
`(x + PAGE_SIZE - 1) & PAGE_MASK`; the addition wraps. -/
def PAGE_ALIGN (x : Nat) : Nat := ((x + (PAGE_SIZE - 1)) % WORD) &&& PAGE_MASK

/-! ## Data model -/

/-- One entry of the scatter-gather table as `for_each_sgtable_sg` sees it:
`sg->length`, in bytes. -/
structure scatterlist where
  length : Nat
deriving DecidableEq, Repr

/-- One entry of the table as `for_each_sgtable_dma_sg` sees it after DMA
mapping: `sg_dma_address(sg)` and `sg_dma_len(sg)`. -/
structure DmaSeg where
  dma_address : Nat
  dma_len : Nat
deriving DecidableEq, Repr

/-- Modelled from the spec: the `IB_ACCESS_*` bit values are not in umem.c; the
three tests `ib_umem_get` makes on `access` are the three fields
(`ib_access_writable(access)`, `access & IB_ACCESS_ON_DEMAND`,
`access & IB_ACCESS_RELAXED_ORDERING`). -/
structure Access where
  writable : Bool
  on_demand : Bool
  relaxed_ordering : Bool
deriving DecidableEq, Repr

/-- The fields of `struct ib_umem` that umem.c reads or writes.  `sgl` is the
CPU-side view of `sgt_append` (one entry per appended batch), `dma` its
DMA-side view; `odp_page_shift` is `to_ib_umem_odp(umem)->page_shift`. -/
structure ib_umem where
  address : Nat
  length : Nat
  iova : Nat
  writable : Bool
  is_odp : Bool
  is_dmabuf : Bool
  odp_page_shift : Nat
  sgl : List scatterlist
  dma : List DmaSeg
deriving DecidableEq, Repr

/-- The part of `struct mm_struct` that umem.c touches: the locked-page counter
`pinned_vm` (the bits of an `atomic64_t`) and the reference count moved by
`mmgrab` / `mmdrop`. -/
structure mm_struct where
  pinned_vm : Nat
  mm_count : Nat
deriving DecidableEq, Repr

/-- Calls of external services, in program order. -/
inductive Event where
  | can_do_mlock
  | kzalloc
  | mmgrab
  | get_free_page
  | pinned_vm_add (n : Nat)
  | pinned_vm_sub (n : Nat)
  | cond_resched
  | pin_user_pages_fast (start nr : Nat) (force : Bool) (ret : Int)
  | sg_alloc_append (n_pages left_pages : Nat) (ret : Int)
  | unpin_user_pages (n : Nat)
  | dma_map (weak_ordering : Bool) (ret : Int)
  | dma_unmap
  | unpin_user_page_range (npages : Nat) (make_dirty : Bool)
  | sg_free_append_table
  | free_page
  | mmdrop
  | kfree
  | dmabuf_release
  | odp_release
  | sg_pcopy_to_buffer (length skip : Nat)
deriving DecidableEq, Repr

/-- The external services `ib_umem_get` consults.  `pin_user_pages_fast` and
`sg_alloc_append` receive the number of the loop iteration first, so that the
same arguments may be answered differently at different calls. -/
structure Env where
  can_do_mlock : Bool
  kzalloc_ok : Bool
  get_free_page_ok : Bool
  rlimit_memlock : Nat
  capable_ipc_lock : Bool
  pin_user_pages_fast : Nat → Nat → Nat → Int
  sg_alloc_append : Nat → Nat → Int
  dma_map : List scatterlist → Int × List DmaSeg

/-- What `ib_umem_get` returns: `ERR_PTR(code)` or the region. -/
inductive UmemResult where
  | err (code : Int)
  | ok (umem : ib_umem)
deriving DecidableEq, Repr

/-- Result of a call together with the process state after it and the services
called during it. -/
structure Outcome where
  result : UmemResult
  mm : mm_struct
  trace : List Event
deriving DecidableEq, Repr

/-! ## Helpers of `struct ib_umem` -/

/-- Modelled from the spec: `ib_umem_num_pages` lives in a header that is not
under src/.  The spec gives it as the number of pages spanned by
`[address, address + length)`: page-align the end up, the start down, divide by
the page size.  Machine-word arithmetic.  It reads the range only, not the
table, so it has the same value at the charge, at the unwind and at release. -/
def ib_umem_num_pages (umem : ib_umem) : Nat :=
  ((PAGE_ALIGN ((umem.address + umem.length) % WORD) + WORD
      - (umem.address &&& PAGE_MASK)) % WORD) / PAGE_SIZE

/-- Modelled from the spec: `ib_umem_offset`, the region's intra-page start
offset `address & ~PAGE_MASK`. -/
def ib_umem_offset (umem : ib_umem) : Nat := umem.address % PAGE_SIZE

/-- `atomic64_add_return(n, &mm->pinned_vm)`. -/
def atomic64_add (n : Nat) (mm : mm_struct) : mm_struct :=
  { mm with pinned_vm := (mm.pinned_vm + n) % WORD }

/-- `atomic64_sub(n, &mm->pinned_vm)`. -/
def atomic64_sub (n : Nat) (mm : mm_struct) : mm_struct :=
  { mm with pinned_vm := (mm.pinned_vm + WORD - n % WORD) % WORD }

def mmgrab (mm : mm_struct) : mm_struct := { mm with mm_count := mm.mm_count + 1 }

def mmdrop (mm : mm_struct) : mm_struct := { mm with mm_count := mm.mm_count - 1 }

/-- `DIV_ROUND_UP(n, d)`. -/
def DIV_ROUND_UP (n d : Nat) : Nat := (n + d - 1) / d

/-! ## `__ib_umem_release` -/

/-- `__ib_umem_release(dev, umem, dirty)`: the service calls it makes.  The DMA
unmap happens only when `dirty`; every entry of the table is unpinned, with
`DIV_ROUND_UP(sg->length, PAGE_SIZE)` pages; the table is freed. -/
def __ib_umem_release (umem : ib_umem) (dirty : Bool) : List Event :=
  (if dirty then [Event.dma_unmap] else []) ++
  umem.sgl.map (fun sg =>
    Event.unpin_user_page_range (DIV_ROUND_UP sg.length PAGE_SIZE) (umem.writable && dirty)) ++
  [Event.sg_free_append_table]

/-! ## `ib_umem_get` -/

/-- The opening test of `ib_umem_get` (lines 176-177):
`(addr + size) < addr || PAGE_ALIGN(addr + size) < (addr + size)`. -/
def range_overflows (addr size : Nat) : Bool :=
  decide ((addr + size) % WORD < addr) ||
  decide (PAGE_ALIGN ((addr + size) % WORD) < (addr + size) % WORD)

/-- Local variables of the pinning loop. -/
structure PinState where
  npages : Nat
  cur_base : Nat
  sgl : List scatterlist
  calls : Nat
  trace : List Event
deriving DecidableEq, Repr

/-- Number of pages asked of the pin service in one iteration:
`min_t(unsigned long, npages, PAGE_SIZE / sizeof(struct page *))` (lines 230-232). -/
def pin_request (st : PinState) : Nat := min st.npages (PAGE_SIZE / 8)

/-- The `int` the pin service returns in this iteration (`pinned`, line 229). -/
def pin_answer (env : Env) (st : PinState) : Int :=
  env.pin_user_pages_fast st.calls st.cur_base (pin_request st)

/-- Services recorded up to the pin call of this iteration (lines 228-233). -/
def pin_trace (env : Env) (force : Bool) (st : PinState) : List Event :=
  st.trace ++ [Event.cond_resched,
    Event.pin_user_pages_fast st.cur_base (pin_request st) force (pin_answer env st)]

/-- Locals when the loop is left through `pinned < 0` (lines 234-237). -/
def pin_failed (env : Env) (force : Bool) (st : PinState) : PinState :=
  { st with calls := st.calls + 1, trace := pin_trace env force st }

/-- `npages` after `npages -= pinned` (line 240). -/
def pin_left (env : Env) (st : PinState) : Nat :=
  (st.npages + WORD - (pin_answer env st).toNat % WORD) % WORD

/-- `cur_base` after `cur_base += pinned * PAGE_SIZE` (line 239). -/
def pin_cursor_next (env : Env) (st : PinState) : Nat :=
  (st.cur_base + (pin_answer env st).toNat * PAGE_SIZE) % WORD

/-- The `int` `sg_alloc_append_table_from_pages` returns in this iteration
(`ret`, line 241). -/
def append_answer (env : Env) (st : PinState) : Int :=
  env.sg_alloc_append st.calls (pin_answer env st).toNat

/-- Services recorded up to the append call of this iteration (lines 241-244). -/
def append_trace (env : Env) (force : Bool) (st : PinState) : List Event :=
  pin_trace env force st ++
    [Event.sg_alloc_append (pin_answer env st).toNat (pin_left env st) (append_answer env st)]

/-- Locals when the loop is left because the append failed: the batch just
pinned is unpinned (lines 245-248). -/
def append_failed (env : Env) (force : Bool) (st : PinState) : PinState :=
  { npages := pin_left env st, cur_base := pin_cursor_next env st, sgl := st.sgl,
    calls := st.calls + 1,
    trace := append_trace env force st ++ [Event.unpin_user_pages (pin_answer env st).toNat] }

/-- Locals at the end of an iteration that pinned and appended a batch. -/
def pin_next (env : Env) (force : Bool) (st : PinState) : PinState :=
  { npages := pin_left env st, cur_base := pin_cursor_next env st,
    sgl := st.sgl ++ [{ length := (pin_answer env st).toNat * PAGE_SIZE }],
    calls := st.calls + 1, trace := append_trace env force st }

/-- The loop `while (npages) { ... }` of `ib_umem_get` (lines 227-249).  The
result is `none` when the fuel runs out, otherwise the value of `ret` on leaving
the loop (`0` on normal exit, otherwise the loop jumped to `umem_release`) and
the locals. -/
def pin_loop (env : Env) (force : Bool) : Nat → PinState → Option (Int × PinState)
  | 0, st => if st.npages = 0 then some (0, st) else none
  | fuel + 1, st =>
    if st.npages = 0 then some (0, st)
    else if pin_answer env st < 0 then some (pin_answer env st, pin_failed env force st)
    else if append_answer env st ≠ 0 then some (append_answer env st, append_failed env force st)
    else pin_loop env force fuel (pin_next env force st)

/-- The labels `umem_release:`, `out:` and `umem_kfree:` taken with `ret != 0`
after the counter was charged (lines 260-270). -/
def umem_release_path (umem : ib_umem) (mm : mm_struct) (tr : List Event) (ret : Int) : Outcome :=
  let n := ib_umem_num_pages umem
  { result := UmemResult.err ret,
    mm := mmdrop (atomic64_sub n mm),
    trace := tr ++ __ib_umem_release umem false ++
      [Event.pinned_vm_sub n, Event.free_page, Event.mmdrop, Event.kfree] }

/-- The region `ib_umem_get` sets up after `kzalloc` (lines 186-198); `kzalloc`
zeroes every other field. -/
def new_umem (addr size : Nat) (access : Access) : ib_umem :=
  { address := addr, length := size, iova := addr, writable := access.writable,
    is_odp := false, is_dmabuf := false, odp_page_shift := 0, sgl := [], dma := [] }

/-- Locals on entering the pinning loop (line 222); `tr` is the services called
so far. -/
def pin_start (addr npages : Nat) (tr : List Event) : PinState :=
  { npages := npages, cur_base := addr &&& PAGE_MASK, sgl := [], calls := 0, trace := tr }

/-- What follows the pinning loop (lines 251-270): when the loop left with
`ret != 0` the unwind, otherwise the DMA mapping and, when that fails, the
unwind. -/
def after_loop (env : Env) (access : Access) (umem : ib_umem) (mm : mm_struct)
    (ret : Int) (ps : PinState) : Outcome :=
  if ret ≠ 0 then
    umem_release_path { umem with sgl := ps.sgl } mm ps.trace ret
  else
    let mapped := env.dma_map ps.sgl
    let tr := ps.trace ++ [Event.dma_map access.relaxed_ordering mapped.1]
    if mapped.1 ≠ 0 then
      umem_release_path { umem with sgl := ps.sgl } mm tr mapped.1
    else
      { result := UmemResult.ok { umem with sgl := ps.sgl, dma := mapped.2 },
        mm := mm, trace := tr ++ [Event.free_page] }

/-- Services called up to and including the page-list allocation. -/
def setup_trace : List Event :=
  [Event.can_do_mlock, Event.kzalloc, Event.mmgrab, Event.get_free_page]

/-- `ib_umem_get(device, addr, size, access)`, run against the services `env` in
the process state `mm`. -/
def ib_umem_get (env : Env) (mm : mm_struct) (addr size : Nat) (access : Access)
    (fuel : Nat) : Option Outcome :=
  if range_overflows addr size then
    some { result := UmemResult.err (-EINVAL), mm := mm, trace := [] }
  else if !env.can_do_mlock then
    some { result := UmemResult.err (-EPERM), mm := mm, trace := [Event.can_do_mlock] }
  else if access.on_demand then
    some { result := UmemResult.err (-EOPNOTSUPP), mm := mm, trace := [Event.can_do_mlock] }
  else if !env.kzalloc_ok then
    some { result := UmemResult.err (-ENOMEM), mm := mm,
           trace := [Event.can_do_mlock, Event.kzalloc] }
  else
    let umem := new_umem addr size access
    let mm1 := mmgrab mm
    if !env.get_free_page_ok then
      some { result := UmemResult.err (-ENOMEM), mm := mmdrop mm1,
             trace := setup_trace ++ [Event.mmdrop, Event.kfree] }
    else
      let npages := ib_umem_num_pages umem
      if npages = 0 ∨ npages > UINT_MAX then
        some { result := UmemResult.err (-EINVAL), mm := mmdrop mm1,
               trace := setup_trace ++ [Event.free_page, Event.mmdrop, Event.kfree] }
      else
        let lock_limit := env.rlimit_memlock >>> PAGE_SHIFT
        let mm2 := atomic64_add npages mm1
        let tr := setup_trace ++ [Event.pinned_vm_add npages]
        if mm2.pinned_vm > lock_limit ∧ !env.capable_ipc_lock then
          some { result := UmemResult.err (-ENOMEM), mm := mmdrop (atomic64_sub npages mm2),
                 trace := tr ++ [Event.pinned_vm_sub npages, Event.free_page,
                                 Event.mmdrop, Event.kfree] }
        else
          match pin_loop env (!umem.writable) fuel (pin_start addr npages tr) with
          | none => none
          | some (ret, ps) => some (after_loop env access umem mm2 ret ps)

/-! ## `ib_umem_release` -/

/-- `ib_umem_release(umem)` on the process state `mm` that owns the region
(`umem->owning_mm`): the state afterwards and the services called. -/
def ib_umem_release (mm : mm_struct) (umem : Option ib_umem) : mm_struct × List Event :=
  match umem with
  | none => (mm, [])
  | some u =>
    if u.is_dmabuf then (mm, [Event.dmabuf_release])
    else if u.is_odp then (mm, [Event.odp_release])
    else
      let n := ib_umem_num_pages u
      (mmdrop (atomic64_sub n mm),
       __ib_umem_release u true ++ [Event.pinned_vm_sub n, Event.mmdrop, Event.kfree])

/-! ## `ib_umem_find_best_pgsz` -/

/-- The machine word `x << n`.  C leaves a shift by `BITS_PER_LONG` or more
undefined; x86-64 and arm64 take the count modulo the word size, and so does
this definition: a shift by 64 is a shift by 0. -/
def shl_word (x n : Nat) : Nat := (x * 2 ^ (n % BITS_PER_LONG)) % WORD

/-- Modelled from the spec: `GENMASK(h, l)`, written as the kernel macro is,
`((~0UL) - (1UL << l) + 1) & (~0UL >> (BITS_PER_LONG - 1 - h))`.  For
`l <= h < BITS_PER_LONG` its set bits are exactly the positions `l, ..., h`; for
`l = BITS_PER_LONG` the shift wraps and every bit up to `h` is set. -/
def GENMASK (h l : Nat) : Nat :=
  ((WORD - 1 - shl_word 1 l + 1) % WORD) &&& ((WORD - 1) / 2 ^ (BITS_PER_LONG - 1 - h))

/-- Scan for the highest set bit, at most `fuel` positions. -/
def ilog2_go : Nat → Nat → Nat
  | 0, _ => 0
  | fuel + 1, n => if n < 2 then 0 else ilog2_go fuel (n / 2) + 1

/-- Modelled from the spec: `ilog2(n)`, the position of the highest set bit of
the machine word `n`. -/
def ilog2 (n : Nat) : Nat := ilog2_go BITS_PER_LONG n

/-- Modelled from the spec: `bits_per(n)`, the number of bits needed to
represent `n`; the kernel counts one bit for `0`. -/
def bits_per (n : Nat) : Nat := if n < 2 then 1 else ilog2 n + 1

/-- Scan for the lowest set bit, at most `fuel` positions. -/
def ctz_go : Nat → Nat → Nat
  | 0, _ => 0
  | fuel + 1, n => if n % 2 = 1 then 0 else ctz_go fuel (n / 2) + 1

/-- Modelled from the spec: `count_trailing_zeros(x)`, the number of zero bits
below the lowest set bit of the machine word `x`. -/
def count_trailing_zeros (x : Nat) : Nat := ctz_go BITS_PER_LONG x

/-- Modelled from the spec: `rounddown_pow_of_two(n)`, the highest set bit of
`n` as a value. -/
def rounddown_pow_of_two (n : Nat) : Nat := 2 ^ ilog2 n

/-- Local variables of the walk over the DMA segments. -/
structure PgszState where
  mask : Nat
  curr_base : Nat
  curr_len : Nat
  va : Nat
  pgoff : Nat
deriving DecidableEq, Repr

/-- One iteration of `for_each_sgtable_dma_sg` (lines 112-138) at index `i`. -/
def pgsz_step (i : Nat) (sg : DmaSeg) (s : PgszState) : PgszState :=
  let s1 : PgszState :=
    if s.curr_base + s.curr_len ≥ WORD ∨ s.curr_base + s.curr_len ≠ sg.dma_address then
      let mask := s.mask ||| (((sg.dma_address + s.pgoff) % WORD) ^^^ s.va)
      { s with curr_base := sg.dma_address, curr_len := 0,
               mask := if i ≠ 0 then mask ||| s.va else mask }
    else s
  { s1 with curr_len := (s1.curr_len + sg.dma_len) % WORD,
            va := (s1.va + sg.dma_len + WORD - s1.pgoff) % WORD,
            pgoff := 0 }

/-- The whole walk, from index `i`. -/
def pgsz_walk : Nat → PgszState → List DmaSeg → PgszState
  | _, s, [] => s
  | i, s, sg :: rest => pgsz_walk (i + 1) (pgsz_step i sg s) rest

/-- The state before the walk (lines 83-84, 91, 106-110). -/
def pgsz_init (umem : ib_umem) (pgsz_bitmap virt : Nat) : PgszState :=
  { mask := pgsz_bitmap &&&
      GENMASK (BITS_PER_LONG - 1) (bits_per (((umem.length + WORD - 1 + virt) % WORD) ^^^ virt)),
    curr_base := WORD - 1,
    curr_len := 0,
    va := virt,
    pgoff := umem.address % PAGE_SIZE }

/-- The result computed from the accumulated mask (lines 144-146). -/
def pgsz_result (pgsz_bitmap mask : Nat) : Nat :=
  let bitmap := if mask ≠ 0 then pgsz_bitmap &&& GENMASK (count_trailing_zeros mask) 0
                else pgsz_bitmap
  if bitmap ≠ 0 then rounddown_pow_of_two bitmap else 0

/-- The value `ib_umem_find_best_pgsz(umem, pgsz_bitmap, virt)` returns. -/
def ib_umem_find_best_pgsz (umem : ib_umem) (pgsz_bitmap virt : Nat) : Nat :=
  if umem.is_odp then
    let page_size := shl_word 1 umem.odp_page_shift % 2 ^ 32
    if pgsz_bitmap &&& page_size = 0 then 0 else page_size
  else
    pgsz_result pgsz_bitmap (pgsz_walk 0 (pgsz_init umem pgsz_bitmap virt) umem.dma).mask

/-- The region after `ib_umem_find_best_pgsz`: `umem->iova = virt` (line 91). -/
def ib_umem_find_best_pgsz_umem (umem : ib_umem) (virt : Nat) : ib_umem :=
  { umem with iova := virt }

/-! ## `ib_umem_copy_from` -/

/-- The `int` a `size_t` is converted to by `ret = sg_pcopy_to_buffer(...)`. -/
def size_t_to_int (n : Nat) : Int :=
  if n % 2 ^ 32 < 2 ^ 31 then ((n % 2 ^ 32 : Nat) : Int)
  else ((n % 2 ^ 32 : Nat) : Int) - 2 ^ 32

/-- The `size_t` an `int` is converted to in the comparison `ret != length`. -/
def int_to_size_t (r : Int) : Nat := (r % (2 ^ 64 : Int)).toNat

/-- `ib_umem_copy_from(dst, umem, offset, length)`.  The scatter copy is the
service `copy`: given the buffer, the length and the skip it returns the number
of bytes copied and the buffer afterwards.  The result is the returned `int`,
the destination buffer afterwards and the services called. -/
def ib_umem_copy_from (copy : List Nat → Nat → Nat → Nat × List Nat)
    (dst : List Nat) (umem : ib_umem) (offset length : Nat) : Int × List Nat × List Event :=
  if offset > umem.length ∨ length > (umem.length + WORD - offset) % WORD then
    (-EINVAL, dst, [])
  else
    let skip := (offset + ib_umem_offset umem) % WORD
    let copied := copy dst length skip
    let ret := size_t_to_int copied.1
    let tr := [Event.sg_pcopy_to_buffer length skip]
    if ret < 0 then (ret, copied.2, tr)
    else if int_to_size_t ret ≠ length then (-EINVAL, copied.2, tr)
    else (0, copied.2, tr)

/-! ## Observers on the recorded services -/

/-- Pages added to `pinned_vm` by one event. -/
def Event.charge : Event → Nat
  | Event.pinned_vm_add n => n
  | _ => 0

/-- Pages subtracted from `pinned_vm` by one event. -/
def Event.refund : Event → Nat
  | Event.pinned_vm_sub n => n
  | _ => 0

/-- Total number of pages added to `pinned_vm` during a run. -/
def charged (tr : List Event) : Nat := (tr.map Event.charge).sum

/-- Total number of pages subtracted from `pinned_vm` during a run. -/
def refunded (tr : List Event) : Nat := (tr.map Event.refund).sum

/-- Pages handed to the scatter-gather table by one event: the batch of a
successful append call. -/
def Event.appended_pages : Event → Nat
  | Event.sg_alloc_append n _ ret => if ret = 0 then n else 0
  | _ => 0

/-- Total number of pages appended to the table over all batches of a run. -/
def appended (tr : List Event) : Nat := (tr.map Event.appended_pages).sum

/-- Pages represented in a scatter-gather table, counted the way
`__ib_umem_release` unpins them. -/
def table_pages (sgl : List scatterlist) : Nat :=
  (sgl.map (fun sg => DIV_ROUND_UP sg.length PAGE_SIZE)).sum

/-- Follow the pin cursor through one event: a pin call has to start at the
cursor, and moves it by the pages it pinned. -/
def cursor_step (c : Option Nat) (e : Event) : Option Nat :=
  match c, e with
  | some c, Event.pin_user_pages_fast start _ _ ret =>
    if start = c then (if ret < 0 then some c else some (c + ret.toNat * PAGE_SIZE)) else none
  | c, _ => c

/-- Where the pin cursor stands after a run whose first pin call starts at `c`;
`none` when some pin call did not start where the previous one stopped. -/
def pin_cursor (c : Nat) (tr : List Event) : Option Nat := tr.foldl cursor_step (some c)

/-- Spec-side page count of the claim on the pinning loop: the distance, in
pages, from `addr` rounded down to a page boundary to `addr + size` rounded up
to one, in unbounded arithmetic. -/
def spec_page_count (addr size : Nat) : Nat :=
  ((addr + size + (PAGE_SIZE - 1)) / PAGE_SIZE * PAGE_SIZE - addr / PAGE_SIZE * PAGE_SIZE)
    / PAGE_SIZE

/-! ## Spec-side notions for the page-size selector -/

/-- The running virtual address at segment `i` when the region is mapped at
`virt`: `virt` itself at the first segment, afterwards `virt` plus the length of
the segments before `i`, less the intra-page offset `pgoff` of the region's
start in the first segment; a machine word. -/
def run_va (virt pgoff : Nat) (segs : List DmaSeg) (i : Nat) : Nat :=
  if i = 0 then virt
  else (virt + ((segs.take i).map DmaSeg.dma_len).sum + WORD - pgoff) % WORD

/-- Segment `i` starts a physically non-contiguous run: it is the first
segment, or it does not begin where the segment before it ends. -/
def is_run_start (segs : List DmaSeg) (i : Nat) : Prop :=
  i = 0 ∨ ∃ a b, segs[i - 1]? = some a ∧ segs[i]? = some b ∧
    a.dma_address + a.dma_len ≠ b.dma_address

/-- Mapping the segments at `virt` with page size `P` is valid: at the start of
every run the DMA address (plus `pgoff` for the first segment) and the running
virtual address agree modulo `P`, and at every run start after the first
segment the running virtual address is a multiple of `P`. -/
def valid_mapping (segs : List DmaSeg) (pgoff virt P : Nat) : Prop :=
  ∀ i b, segs[i]? = some b → is_run_start segs i →
    (b.dma_address + (if i = 0 then pgoff else 0)) % P = run_va virt pgoff segs i % P ∧
    (i ≠ 0 → run_va virt pgoff segs i % P = 0)

/-- The segments form one physically contiguous run: each begins where the one
before it ends. -/
def contiguous_chain : List DmaSeg → Prop
  | a :: b :: rest => a.dma_address + a.dma_len = b.dma_address ∧ contiguous_chain (b :: rest)
  | _ => True

/-- The DMA segments are fully contiguous with the virtual range mapped at
`virt`: one physically contiguous run, and the DMA address of the region's first
byte is `virt`. -/
def fully_contiguous (umem : ib_umem) (virt : Nat) : Prop :=
  contiguous_chain umem.dma ∧
  ∃ first, umem.dma.head? = some first ∧ first.dma_address + ib_umem_offset umem = virt

/-- Number of bits needed to represent `(length - 1 + virt) XOR virt`, the
address bits that vary over the range `[virt, virt + length - 1]`. -/
def span_bits (length virt : Nat) : Nat :=
  bits_per (((length + WORD - 1 + virt) % WORD) ^^^ virt)

/-- The natural alignment of the range: the smallest power-of-two size whose
aligned block contains `[virt, virt + length - 1]`. -/
def natural_alignment (length virt : Nat) : Nat := 2 ^ span_bits length virt

/-- Number of blocks of size `P`, aligned to `P`, needed to cover
`[virt, virt + length)`: from `virt` rounded down to a multiple of `P` to
`virt + length` rounded up to one. -/
def num_blocks (virt length P : Nat) : Nat := (virt + length + P - 1) / P - virt / P

/-- Relation between the locals of the walk after the segments `pre` and the
spec-side notions: the cursor is the running virtual address, the offset is
consumed after the first segment, and `curr_base + curr_len` is the end of the
last segment seen. -/
def WalkInv (virt pgoff : Nat) (pre : List DmaSeg) (s : PgszState) : Prop :=
  s.va = run_va virt pgoff pre pre.length ∧
  s.va < WORD ∧
  s.pgoff = (if pre.length = 0 then pgoff else 0) ∧
  (pre = [] → s.curr_base = WORD - 1 ∧ s.curr_len = 0) ∧
  (∀ a, pre.getLast? = some a → s.curr_base + s.curr_len = a.dma_address + a.dma_len)

/-! ## Concrete service behaviours used in the examples -/

/-- Services that grant everything: every pin call pins the whole batch it was
asked for, every append and the DMA mapping succeed (one DMA segment per table
entry, at bus address 0). -/
def env_ok : Env where
  can_do_mlock := true
  kzalloc_ok := true
  get_free_page_ok := true
  rlimit_memlock := 2 ^ 40
  capable_ipc_lock := false
  pin_user_pages_fast := fun _ _ nr => nr
  sg_alloc_append := fun _ _ => 0
  dma_map := fun l => (0, l.map (fun sg => { dma_address := 0, dma_len := sg.length }))

/-- A process whose lock limit is ten pages and that has no override capability. -/
def env_limit : Env := { env_ok with rlimit_memlock := 40960 }

/-- Services that grant everything, except that one pin call pins at most two
pages. -/
def env_short : Env := { env_ok with pin_user_pages_fast := fun _ _ nr => min nr 2 }

/-- Requested access: writable, not on-demand, strict ordering. -/
def access_rw : Access := { writable := true, on_demand := false, relaxed_ordering := false }

/-- A standard region over the DMA segments `dma`. -/
def umem_of (address length : Nat) (dma : List DmaSeg) : ib_umem :=
  { address := address, length := length, iova := address, writable := true,
    is_odp := false, is_dmabuf := false, odp_page_shift := 0, sgl := [], dma := dma }

/-- Four pages in two physically separate runs of two pages. -/
def umem_two_runs : ib_umem :=
  umem_of 0 16384 [{ dma_address := 65536, dma_len := 8192 },
                   { dma_address := 262144, dma_len := 8192 }]

/-- Two pages at user and bus address 0x201000, one DMA segment. -/
def umem_8k : ib_umem := umem_of 2101248 8192 [{ dma_address := 2101248, dma_len := 8192 }]

/-- One page at bus address 4096, one DMA segment. -/
def umem_4k : ib_umem := umem_of 4096 4096 [{ dma_address := 4096, dma_len := 4096 }]

/-- The page sizes 4K, 2M and 1G. -/
def bitmap_4k_2m_1g : Nat := 4096 + 2097152 + 1073741824

/-- One page at user address 4096, pinned at bus address 65536. -/
def umem_page : ib_umem := umem_of 4096 4096 [{ dma_address := 65536, dma_len := 4096 }]

/-- A page-sized range starting 0x234 bytes into a page, pinned as two pages in
two separate runs. -/
def umem_straddle : ib_umem :=
  umem_of 4660 4096 [{ dma_address := 65536, dma_len := 4096 },
                     { dma_address := 262144, dma_len := 4096 }]

/-- A scatter copy that fills the buffer with `length` bytes of value 7. -/
def copy_sevens (_dst : List Nat) (length _skip : Nat) : Nat × List Nat :=
  (length, List.replicate length 7)

/-- Services that grant everything, except that the third pin call fails with
`-EFAULT`. -/
def env_fail3 : Env :=
  { env_ok with pin_user_pages_fast := fun i _ nr => if i = 2 then -EFAULT else nr }

/-- Services that pin at most two pages per call and whose second append call
fails with `-ENOMEM`. -/
def env_append_fail : Env :=
  { env_short with sg_alloc_append := fun i _ => if i = 1 then -ENOMEM else 0 }

/-- A process with no locked pages. -/
def mm_zero : mm_struct := { pinned_vm := 0, mm_count := 1 }

/-- A process with seven locked pages. -/
def mm_seven : mm_struct := { pinned_vm := 7, mm_count := 1 }

/-- A process with ten locked pages. -/
def mm_ten : mm_struct := { pinned_vm := 10, mm_count := 1 }

/-- Outcome of asking for one page at the lock limit: the charge is rolled back. -/
def out_limit : Outcome :=
  { result := UmemResult.err (-ENOMEM), mm := mm_ten,
    trace := setup_trace ++ [Event.pinned_vm_add 1, Event.pinned_vm_sub 1,
      Event.free_page, Event.mmdrop, Event.kfree] }

/-- The region returned for `[100, 100 + 8192)` when every batch is granted. -/
def umem_three_pages : ib_umem :=
  { new_umem 100 8192 access_rw with
    sgl := [{ length := 12288 }], dma := [{ dma_address := 0, dma_len := 12288 }] }

/-- Outcome of pinning `[100, 100 + 8192)` for a process with seven locked pages. -/
def out_three_pages : Outcome :=
  { result := UmemResult.ok umem_three_pages,
    mm := { pinned_vm := 10, mm_count := 2 },
    trace := setup_trace ++ [Event.pinned_vm_add 3, Event.cond_resched,
      Event.pin_user_pages_fast 0 3 false 3, Event.sg_alloc_append 3 0 0,
      Event.dma_map false 0, Event.free_page] }

/-- The region returned for `[100, 100 + 8192)` when a pin call pins at most two
pages. -/
def umem_short : ib_umem :=
  { new_umem 100 8192 access_rw with
    sgl := [{ length := 8192 }, { length := 4096 }],
    dma := [{ dma_address := 0, dma_len := 8192 }, { dma_address := 0, dma_len := 4096 }] }

/-- Outcome of pinning `[100, 100 + 8192)` two pages at a time. -/
def out_short : Outcome :=
  { result := UmemResult.ok umem_short,
    mm := { pinned_vm := 3, mm_count := 2 },
    trace := setup_trace ++ [Event.pinned_vm_add 3, Event.cond_resched,
      Event.pin_user_pages_fast 0 3 false 2, Event.sg_alloc_append 2 1 0,
      Event.cond_resched,
      Event.pin_user_pages_fast 8192 1 false 1, Event.sg_alloc_append 1 0 0,
      Event.dma_map false 0, Event.free_page] }

/-- Outcome of pinning 2048 pages when the third pin call fails with `-EFAULT`. -/
def out_fail3 : Outcome :=
  { result := UmemResult.err (-EFAULT), mm := mm_zero,
    trace := setup_trace ++ [Event.pinned_vm_add 2048,
      Event.cond_resched,
      Event.pin_user_pages_fast 0 512 false 512, Event.sg_alloc_append 512 1536 0,
      Event.cond_resched,
      Event.pin_user_pages_fast 2097152 512 false 512, Event.sg_alloc_append 512 1024 0,
      Event.cond_resched,
      Event.pin_user_pages_fast 4194304 512 false (-EFAULT),
      Event.unpin_user_page_range 512 false,
      Event.unpin_user_page_range 512 false,
      Event.sg_free_append_table,
      Event.pinned_vm_sub 2048, Event.free_page, Event.mmdrop, Event.kfree] }

/-- Outcome of pinning four pages two at a time when the second append fails. -/
def out_append_fail : Outcome :=
  { result := UmemResult.err (-ENOMEM), mm := mm_zero,
    trace := setup_trace ++ [Event.pinned_vm_add 4, Event.cond_resched,
      Event.pin_user_pages_fast 0 4 false 2, Event.sg_alloc_append 2 2 0,
      Event.cond_resched,
      Event.pin_user_pages_fast 8192 2 false 2,
      Event.sg_alloc_append 2 0 (-ENOMEM),
      Event.unpin_user_pages 2,
      Event.unpin_user_page_range 2 false,
      Event.sg_free_append_table,
      Event.pinned_vm_sub 4, Event.free_page, Event.mmdrop, Event.kfree] }

/-- Two pages at user address 0x3000, pinned contiguously at bus address
0x7000: virtual and bus address agree in the 14 low bits only. -/
def umem_tie : ib_umem := umem_of 12288 8192 [{ dma_address := 28672, dma_len := 8192 }]

/-- Every page size from 4K to 2G. -/
def bitmap_from_4k : Nat := 4294963200

/-! ## Proofs -/

theorem word_roundtrip (c n : Nat) (h : c < WORD) :
    ((c + n) % WORD + WORD - n % WORD) % WORD = c := by
  unfold WORD at *
  omega

/-- Every completed run of `ib_umem_get` is one of the seven early exits or the
continuation of a completed pinning loop. -/
theorem ib_umem_get_inv (env : Env) (mm : mm_struct) (addr size : Nat) (access : Access)
    (fuel : Nat) (out : Outcome)
    (h : ib_umem_get env mm addr size access fuel = some out) :
    (range_overflows addr size = true ∧
      out = { result := UmemResult.err (-EINVAL), mm := mm, trace := [] }) ∨
    (range_overflows addr size = false ∧
     (out = { result := UmemResult.err (-EPERM), mm := mm, trace := [Event.can_do_mlock] } ∨
      out = { result := UmemResult.err (-EOPNOTSUPP), mm := mm, trace := [Event.can_do_mlock] } ∨
      out = { result := UmemResult.err (-ENOMEM), mm := mm,
              trace := [Event.can_do_mlock, Event.kzalloc] } ∨
      out = { result := UmemResult.err (-ENOMEM), mm := mmdrop (mmgrab mm),
              trace := setup_trace ++ [Event.mmdrop, Event.kfree] } ∨
      out = { result := UmemResult.err (-EINVAL), mm := mmdrop (mmgrab mm),
              trace := setup_trace ++ [Event.free_page, Event.mmdrop, Event.kfree] } ∨
      out = { result := UmemResult.err (-ENOMEM),
              mm := mmdrop (atomic64_sub (ib_umem_num_pages (new_umem addr size access))
                      (atomic64_add (ib_umem_num_pages (new_umem addr size access)) (mmgrab mm))),
              trace := setup_trace ++
                [Event.pinned_vm_add (ib_umem_num_pages (new_umem addr size access))] ++
                [Event.pinned_vm_sub (ib_umem_num_pages (new_umem addr size access)),
                 Event.free_page, Event.mmdrop, Event.kfree] } ∨
      (ib_umem_num_pages (new_umem addr size access) ≠ 0 ∧
       ib_umem_num_pages (new_umem addr size access) ≤ UINT_MAX ∧
       ∃ ret ps,
        pin_loop env (!access.writable) fuel
          (pin_start addr (ib_umem_num_pages (new_umem addr size access))
            (setup_trace ++
              [Event.pinned_vm_add (ib_umem_num_pages (new_umem addr size access))]))
          = some (ret, ps) ∧
        out = after_loop env access (new_umem addr size access)
          (atomic64_add (ib_umem_num_pages (new_umem addr size access)) (mmgrab mm)) ret ps))) := by
  unfold ib_umem_get at h
  by_cases h1 : range_overflows addr size = true
  · rw [if_pos h1] at h
    simp only [Option.some.injEq] at h
    exact Or.inl ⟨h1, h.symm⟩
  rw [if_neg h1] at h
  refine Or.inr ⟨by simpa using h1, ?_⟩
  by_cases h2 : (!env.can_do_mlock) = true
  · rw [if_pos h2] at h
    simp only [Option.some.injEq] at h
    exact Or.inl h.symm
  rw [if_neg h2] at h
  by_cases h3 : access.on_demand = true
  · rw [if_pos h3] at h
    simp only [Option.some.injEq] at h
    exact Or.inr (Or.inl h.symm)
  rw [if_neg h3] at h
  by_cases h4 : (!env.kzalloc_ok) = true
  · rw [if_pos h4] at h
    simp only [Option.some.injEq] at h
    exact Or.inr (Or.inr (Or.inl h.symm))
  rw [if_neg h4] at h
  simp only at h
  by_cases h5 : (!env.get_free_page_ok) = true
  · rw [if_pos h5] at h
    simp only [Option.some.injEq] at h
    exact Or.inr (Or.inr (Or.inr (Or.inl h.symm)))
  rw [if_neg h5] at h
  by_cases h6 : ib_umem_num_pages (new_umem addr size access) = 0 ∨
      ib_umem_num_pages (new_umem addr size access) > UINT_MAX
  · rw [if_pos h6] at h
    simp only [Option.some.injEq] at h
    exact Or.inr (Or.inr (Or.inr (Or.inr (Or.inl h.symm))))
  rw [if_neg h6] at h
  by_cases h7 : (atomic64_add (ib_umem_num_pages (new_umem addr size access))
      (mmgrab mm)).pinned_vm > env.rlimit_memlock >>> PAGE_SHIFT ∧
      (!env.capable_ipc_lock) = true
  · rw [if_pos h7] at h
    simp only [Option.some.injEq] at h
    exact Or.inr (Or.inr (Or.inr (Or.inr (Or.inr (Or.inl h.symm)))))
  rw [if_neg h7] at h
  refine Or.inr (Or.inr (Or.inr (Or.inr (Or.inr (Or.inr ⟨?_, ?_, ?_⟩)))))
  · exact fun h0 => h6 (Or.inl h0)
  · exact Nat.le_of_not_lt (fun h0 => h6 (Or.inr h0))
  · cases hp : pin_loop env (!access.writable) fuel
        (pin_start addr (ib_umem_num_pages (new_umem addr size access))
          (setup_trace ++
            [Event.pinned_vm_add (ib_umem_num_pages (new_umem addr size access))])) with
    | none =>
      simp only [new_umem] at h hp
      rw [hp] at h
      exact absurd h (by simp)
    | some rp =>
      obtain ⟨ret, ps⟩ := rp
      simp only [new_umem] at h hp
      rw [hp] at h
      simp only [Option.some.injEq] at h
      exact ⟨ret, ps, rfl, by simp only [new_umem]; exact h.symm⟩

theorem charged_append (a b : List Event) : charged (a ++ b) = charged a + charged b := by
  simp [charged]

theorem refunded_append (a b : List Event) : refunded (a ++ b) = refunded a + refunded b := by
  simp [refunded]

/-- Case analysis on one completed run of the pinning loop.  -/
theorem pin_loop_cases (env : Env) (force : Bool) (fuel : Nat) (st : PinState)
    (ret : Int) (ps : PinState) (h : pin_loop env force fuel st = some (ret, ps)) :
    (st.npages = 0 ∧ ret = 0 ∧ ps = st) ∨
    (st.npages ≠ 0 ∧ pin_answer env st < 0 ∧ ret = pin_answer env st ∧
      ps = pin_failed env force st) ∨
    (st.npages ≠ 0 ∧ 0 ≤ pin_answer env st ∧ append_answer env st ≠ 0 ∧
      ret = append_answer env st ∧ ps = append_failed env force st) ∨
    (st.npages ≠ 0 ∧ 0 ≤ pin_answer env st ∧ append_answer env st = 0 ∧
      ∃ f, fuel = f + 1 ∧ pin_loop env force f (pin_next env force st) = some (ret, ps)) := by
  cases fuel with
  | zero =>
    unfold pin_loop at h
    by_cases h0 : st.npages = 0
    · rw [if_pos h0] at h
      simp only [Option.some.injEq, Prod.mk.injEq] at h
      exact Or.inl ⟨h0, h.1.symm, h.2.symm⟩
    · rw [if_neg h0] at h
      exact absurd h (by simp)
  | succ f =>
    unfold pin_loop at h
    by_cases h0 : st.npages = 0
    · rw [if_pos h0] at h
      simp only [Option.some.injEq, Prod.mk.injEq] at h
      exact Or.inl ⟨h0, h.1.symm, h.2.symm⟩
    rw [if_neg h0] at h
    by_cases h1 : pin_answer env st < 0
    · rw [if_pos h1] at h
      simp only [Option.some.injEq, Prod.mk.injEq] at h
      exact Or.inr (Or.inl ⟨h0, h1, h.1.symm, h.2.symm⟩)
    rw [if_neg h1] at h
    by_cases h2 : append_answer env st ≠ 0
    · rw [if_pos h2] at h
      simp only [Option.some.injEq, Prod.mk.injEq] at h
      exact Or.inr (Or.inr (Or.inl ⟨h0, not_lt.mp h1, h2, h.1.symm, h.2.symm⟩))
    rw [if_neg h2] at h
    exact Or.inr (Or.inr (Or.inr ⟨h0, not_lt.mp h1, not_not.mp h2, f, rfl, h⟩))

/-- The pinning loop neither charges nor refunds the counter. -/
theorem pin_loop_charged (env : Env) (force : Bool) :
    ∀ (fuel : Nat) (st : PinState) (ret : Int) (ps : PinState),
      pin_loop env force fuel st = some (ret, ps) →
      charged ps.trace = charged st.trace ∧ refunded ps.trace = refunded st.trace := by
  intro fuel
  induction fuel with
  | zero =>
    intro st ret ps h
    rcases pin_loop_cases env force 0 st ret ps h with
      ⟨_, _, rfl⟩ | ⟨_, _, _, rfl⟩ | ⟨_, _, _, _, rfl⟩ | ⟨_, _, _, f, hf, _⟩
    · exact ⟨rfl, rfl⟩
    · simp [pin_failed, pin_trace, charged, refunded, Event.charge, Event.refund]
    · simp [append_failed, append_trace, pin_trace, charged, refunded, Event.charge,
        Event.refund]
    · omega
  | succ fuel ih =>
    intro st ret ps h
    rcases pin_loop_cases env force (fuel + 1) st ret ps h with
      ⟨_, _, rfl⟩ | ⟨_, _, _, rfl⟩ | ⟨_, _, _, _, rfl⟩ | ⟨_, _, _, f, hf, hrec⟩
    · exact ⟨rfl, rfl⟩
    · simp [pin_failed, pin_trace, charged, refunded, Event.charge, Event.refund]
    · simp [append_failed, append_trace, pin_trace, charged, refunded, Event.charge,
        Event.refund]
    · have hf2 : f = fuel := by omega
      subst hf2
      have := ih _ _ _ hrec
      simpa [pin_next, append_trace, pin_trace, charged, refunded, Event.charge,
        Event.refund] using this

theorem after_loop_err_pinned_vm (env : Env) (access : Access) (u : ib_umem) (mm : mm_struct)
    (ret : Int) (ps : PinState) (code : Int) (hmm : mm.pinned_vm < WORD)
    (herr : (after_loop env access u (atomic64_add (ib_umem_num_pages u) (mmgrab mm)) ret ps).result
      = UmemResult.err code) :
    (after_loop env access u (atomic64_add (ib_umem_num_pages u) (mmgrab mm)) ret ps).mm.pinned_vm
      = mm.pinned_vm := by
  have key : ∀ (tr : List Event) (r : Int),
      (umem_release_path { u with sgl := ps.sgl }
        (atomic64_add (ib_umem_num_pages u) (mmgrab mm)) tr r).mm.pinned_vm = mm.pinned_vm := by
    intro tr r
    simp only [umem_release_path, mmdrop, atomic64_sub, atomic64_add, mmgrab]
    exact word_roundtrip _ _ hmm
  unfold after_loop at herr ⊢
  by_cases h1 : ret ≠ 0
  · rw [if_pos h1]
    exact key _ _
  · rw [if_neg h1] at herr ⊢
    by_cases h2 : (env.dma_map ps.sgl).1 ≠ 0
    · simp only [if_pos h2]
      exact key _ _
    · simp only [if_neg h2] at herr
      exact absurd herr (by simp)

/-- C1: whenever `ib_umem_get` returns an error, whatever the external services
answered, `mm->pinned_vm` after the call equals its value before the call. -/
theorem ib_umem_get_error_keeps_pinned_vm (env : Env) (mm : mm_struct) (addr size : Nat)
    (access : Access) (fuel : Nat) (out : Outcome) (code : Int)
    (hmm : mm.pinned_vm < WORD)
    (h : ib_umem_get env mm addr size access fuel = some out)
    (herr : out.result = UmemResult.err code) :
    out.mm.pinned_vm = mm.pinned_vm := by
  rcases ib_umem_get_inv env mm addr size access fuel out h with
    ⟨_, rfl⟩ | ⟨_, rfl | rfl | rfl | rfl | rfl | rfl | ⟨_, _, ret, ps, _, rfl⟩⟩
  · rfl
  · rfl
  · rfl
  · rfl
  · rfl
  · rfl
  · simp only [mmdrop, atomic64_sub, atomic64_add, mmgrab]
    exact word_roundtrip _ _ hmm
  · exact after_loop_err_pinned_vm env access _ mm ret ps code hmm herr

/-- C1 at a concrete input: a process at its lock limit of ten pages, without
the override capability, asks for one more page. -/
theorem ib_umem_get_error_keeps_pinned_vm_witness :
    ib_umem_get env_limit mm_ten 0 4096 access_rw 1 = some out_limit ∧
    out_limit.result = UmemResult.err (-ENOMEM) ∧
    out_limit.mm.pinned_vm = mm_ten.pinned_vm :=
  have h : ib_umem_get env_limit mm_ten 0 4096 access_rw 1 = some out_limit := by decide
  ⟨h, rfl, ib_umem_get_error_keeps_pinned_vm env_limit mm_ten 0 4096 access_rw 1 out_limit
    (-ENOMEM) (by decide) h rfl⟩

/-- A successful run went through the loop and the DMA mapping. -/
theorem ib_umem_get_ok_inv (env : Env) (mm : mm_struct) (addr size : Nat) (access : Access)
    (fuel : Nat) (out : Outcome) (umem : ib_umem)
    (h : ib_umem_get env mm addr size access fuel = some out)
    (hok : out.result = UmemResult.ok umem) :
    range_overflows addr size = false ∧
    ib_umem_num_pages (new_umem addr size access) ≠ 0 ∧
    ib_umem_num_pages (new_umem addr size access) ≤ UINT_MAX ∧
    ∃ ps, pin_loop env (!access.writable) fuel
        (pin_start addr (ib_umem_num_pages (new_umem addr size access))
          (setup_trace ++ [Event.pinned_vm_add (ib_umem_num_pages (new_umem addr size access))]))
        = some (0, ps) ∧
      (env.dma_map ps.sgl).1 = 0 ∧
      umem = { new_umem addr size access with sgl := ps.sgl, dma := (env.dma_map ps.sgl).2 } ∧
      out.mm = atomic64_add (ib_umem_num_pages (new_umem addr size access)) (mmgrab mm) ∧
      out.trace = ps.trace ++ [Event.dma_map access.relaxed_ordering 0] ++ [Event.free_page] := by
  rcases ib_umem_get_inv env mm addr size access fuel out h with
    ⟨_, rfl⟩ | ⟨hr, rfl | rfl | rfl | rfl | rfl | rfl | ⟨hn0, hn1, ret, ps, hloop, rfl⟩⟩
  · simp at hok
  · simp at hok
  · simp at hok
  · simp at hok
  · simp at hok
  · simp at hok
  · simp at hok
  · refine ⟨hr, hn0, hn1, ?_⟩
    by_cases h1 : ret ≠ 0
    · simp [after_loop, if_pos h1, umem_release_path] at hok
    · have hret : ret = 0 := not_not.mp h1
      subst hret
      by_cases h2 : (env.dma_map ps.sgl).1 ≠ 0
      · simp [after_loop, if_pos h2, umem_release_path] at hok
      · have hm : (env.dma_map ps.sgl).1 = 0 := not_not.mp h2
        have hval : after_loop env access (new_umem addr size access)
            (atomic64_add (ib_umem_num_pages (new_umem addr size access)) (mmgrab mm)) 0 ps
            = { result := UmemResult.ok { new_umem addr size access with
                  sgl := ps.sgl, dma := (env.dma_map ps.sgl).2 },
                mm := atomic64_add (ib_umem_num_pages (new_umem addr size access)) (mmgrab mm),
                trace := ps.trace ++ [Event.dma_map access.relaxed_ordering 0] ++
                  [Event.free_page] } := by
          simp [after_loop, hm]
        rw [hval] at hok ⊢
        simp only [UmemResult.ok.injEq] at hok
        exact ⟨ps, hloop, hm, hok.symm, rfl, rfl⟩

theorem release_events_charged (u : ib_umem) (dirty : Bool) :
    charged (__ib_umem_release u dirty) = 0 ∧ refunded (__ib_umem_release u dirty) = 0 := by
  have key : ∀ (l : List scatterlist) (b : Bool),
      charged (l.map (fun sg =>
        Event.unpin_user_page_range (DIV_ROUND_UP sg.length PAGE_SIZE) b)) = 0 ∧
      refunded (l.map (fun sg =>
        Event.unpin_user_page_range (DIV_ROUND_UP sg.length PAGE_SIZE) b)) = 0 := by
    intro l b
    induction l with
    | nil => exact ⟨rfl, rfl⟩
    | cons x xs ih =>
      obtain ⟨ih1, ih2⟩ := ih
      simp only [charged, refunded, List.map_cons, List.sum_cons] at ih1 ih2 ⊢
      rw [ih1, ih2]
      exact ⟨rfl, rfl⟩
  unfold __ib_umem_release
  rw [charged_append, charged_append, refunded_append, refunded_append, (key _ _).1, (key _ _).2]
  cases dirty <;> simp [charged, refunded, Event.charge, Event.refund]

/-- C2: releasing the standard region a successful `ib_umem_get` returned puts
`mm->pinned_vm` back to its value before the `ib_umem_get` call, and the number
of pages subtracted at release is the number added at acquisition. -/
theorem ib_umem_release_restores_pinned_vm (env : Env) (mm : mm_struct) (addr size : Nat)
    (access : Access) (fuel : Nat) (out : Outcome) (umem : ib_umem)
    (hmm : mm.pinned_vm < WORD)
    (h : ib_umem_get env mm addr size access fuel = some out)
    (hok : out.result = UmemResult.ok umem) :
    umem.is_dmabuf = false ∧ umem.is_odp = false ∧
    (ib_umem_release out.mm (some umem)).1.pinned_vm = mm.pinned_vm ∧
    refunded (ib_umem_release out.mm (some umem)).2 = charged out.trace ∧
    charged out.trace = ib_umem_num_pages umem := by
  obtain ⟨_, _, _, ps, hloop, _, rfl, hmm2, htr⟩ :=
    ib_umem_get_ok_inv env mm addr size access fuel out umem h hok
  have hc := (pin_loop_charged env _ fuel _ 0 ps hloop).1
  refine ⟨rfl, rfl, ?_, ?_, ?_⟩
  · rw [hmm2]
    simp only [ib_umem_release, new_umem, Bool.false_eq_true, if_false, mmdrop, atomic64_sub,
      atomic64_add, mmgrab]
    exact word_roundtrip _ _ hmm
  · rw [htr]
    simp only [ib_umem_release, new_umem, Bool.false_eq_true, if_false, charged_append,
      refunded_append, hc, (release_events_charged _ _).2]
    simp [charged, refunded, Event.charge, Event.refund, pin_start, setup_trace,
      ib_umem_num_pages]
  · rw [htr]
    simp only [charged_append, hc]
    simp [charged, Event.charge, pin_start, setup_trace, ib_umem_num_pages, new_umem]

/-- C2 at a concrete input: three pages are pinned for a process that had seven
locked pages, then released. -/
theorem ib_umem_release_restores_pinned_vm_witness :
    ib_umem_get env_ok mm_seven 100 8192 access_rw 3 = some out_three_pages ∧
    out_three_pages.result = UmemResult.ok umem_three_pages ∧
    (ib_umem_release out_three_pages.mm (some umem_three_pages)).1.pinned_vm
      = mm_seven.pinned_vm :=
  have h : ib_umem_get env_ok mm_seven 100 8192 access_rw 3 = some out_three_pages := by
    decide
  ⟨h, rfl, (ib_umem_release_restores_pinned_vm env_ok mm_seven 100 8192 access_rw 3
    out_three_pages umem_three_pages (by decide) h rfl).2.2.1⟩

theorem testBit_div_pow (x k j : Nat) : (x / 2 ^ k).testBit j = x.testBit (k + j) := by
  rw [← Nat.shiftRight_eq_div_pow, Nat.testBit_shiftRight]

theorem testBit_two_pow_sub (h l i : Nat) :
    (2 ^ (h + 1) - 2 ^ l).testBit i = decide (l ≤ i ∧ i ≤ h) := by
  by_cases hl : l ≤ h + 1
  · have e : 2 ^ (h + 1) - 2 ^ l = 2 ^ l * (2 ^ (h + 1 - l) - 1) := by
      rw [Nat.mul_sub, ← Nat.pow_add, Nat.mul_one]
      congr 2
      omega
    rw [e, Nat.testBit_mul_pow_two, Nat.testBit_two_pow_sub_one]
    by_cases h1 : l ≤ i
    · by_cases h2 : i ≤ h
      · have : i - l < h + 1 - l := by omega
        simp [h1, h2, this]
      · have : ¬ (i - l < h + 1 - l) := by omega
        simp [h1, h2, this]
    · simp [h1]
  · have e : 2 ^ (h + 1) - 2 ^ l = 0 :=
      Nat.sub_eq_zero_of_le (Nat.pow_le_pow_right (by decide) (by omega))
    rw [e]
    have : ¬ (l ≤ i ∧ i ≤ h) := by omega
    simp [this]

/-- Within the word, `GENMASK(h, l)` has exactly the bits `l, ..., h`. -/
theorem testBit_GENMASK (h l i : Nat) (hh : h ≤ 63) (hl : l ≤ 63) :
    (GENMASK h l).testBit i = decide (l ≤ i ∧ i ≤ h) := by
  have hpl : 2 ^ l < 2 ^ 64 := Nat.pow_lt_pow_right (by decide) (by omega)
  have hp1 : 1 ≤ 2 ^ l := Nat.two_pow_pos l
  have hA : (WORD - 1 - shl_word 1 l + 1) % WORD = 2 ^ (63 + 1) - 2 ^ l := by
    have hs : shl_word 1 l = 2 ^ l := by
      have hm : l % BITS_PER_LONG = l :=
        Nat.mod_eq_of_lt (by simp only [BITS_PER_LONG]; omega)
      unfold shl_word
      rw [Nat.one_mul, hm]
      exact Nat.mod_eq_of_lt hpl
    rw [hs]
    simp only [WORD] at *
    omega
  unfold GENMASK
  rw [Nat.testBit_and, hA, testBit_two_pow_sub, testBit_div_pow]
  have hB : WORD - 1 = 2 ^ 64 - 1 := rfl
  rw [hB, Nat.testBit_two_pow_sub_one]
  by_cases h1 : l ≤ i
  · by_cases h2 : i ≤ h
    · have a1 : i ≤ 63 := by omega
      have a2 : BITS_PER_LONG - 1 - h + i < 64 := by simp only [BITS_PER_LONG]; omega
      simp [h1, h2, a1, a2]
    · have a2 : ¬ (BITS_PER_LONG - 1 - h + i < 64) := by simp only [BITS_PER_LONG]; omega
      simp [h2, a2]
  · simp [h1]

/-- A shift by the word size wraps: `GENMASK(63, 64)` has every bit set. -/
theorem GENMASK_wrap : GENMASK 63 64 = WORD - 1 := by decide

theorem testBit_word_lt (n k : Nat) (hn : n < WORD) (h : n.testBit k = true) : k < 64 := by
  by_contra hk
  have : n < 2 ^ k := Nat.lt_of_lt_of_le hn (Nat.pow_le_pow_right (by decide) (by omega))
  rw [Nat.testBit_lt_two_pow this] at h
  exact absurd h (by simp)

theorem and_page_mask (x : Nat) (h : x < WORD) : x &&& PAGE_MASK = x / PAGE_SIZE * PAGE_SIZE := by
  apply Nat.eq_of_testBit_eq
  intro i
  have hm : PAGE_MASK = GENMASK 63 12 := by decide
  have hx : x / PAGE_SIZE * PAGE_SIZE = 2 ^ 12 * (x / 2 ^ 12) := by
    simp only [PAGE_SIZE]; omega
  rw [Nat.testBit_and, hm, hx, Nat.testBit_mul_pow_two,
    testBit_GENMASK 63 12 i (by decide) (by decide), testBit_div_pow]
  by_cases hi : 12 ≤ i
  · have e : 12 + (i - 12) = i := by omega
    by_cases hi2 : i ≤ 63
    · simp [hi, hi2, e]
    · have : x < 2 ^ i := by
        calc x < 2 ^ 64 := h
          _ ≤ 2 ^ i := Nat.pow_le_pow_right (by decide) (by omega)
      simp [hi, hi2, e, Nat.testBit_lt_two_pow this]
  · simp [hi]

/-- Under the opening range test, the page count of the fresh region is the
number of pages spanned by `[addr, addr + size)`. -/
theorem num_pages_eq_spec (addr size : Nat) (access : Access) (ha : addr < WORD)
    (hs : size < WORD) (hr : range_overflows addr size = false) :
    ib_umem_num_pages (new_umem addr size access) = spec_page_count addr size ∧
    addr / PAGE_SIZE * PAGE_SIZE + spec_page_count addr size * PAGE_SIZE < WORD := by
  have hr1 : ¬ ((addr + size) % WORD < addr) := by
    intro hc
    simp [range_overflows, hc] at hr
  have hr2 : ¬ (PAGE_ALIGN ((addr + size) % WORD) < (addr + size) % WORD) := by
    intro hc
    simp [range_overflows, hc] at hr
  have hmod : ∀ y, y % WORD < WORD := fun y => Nat.mod_lt _ (by decide)
  simp only [ib_umem_num_pages, new_umem, spec_page_count, PAGE_ALIGN] at hr2 ⊢
  rw [and_page_mask _ (hmod _)] at hr2 ⊢
  rw [and_page_mask _ ha]
  simp only [WORD, PAGE_SIZE] at *
  omega

theorem appended_append (a b : List Event) : appended (a ++ b) = appended a + appended b := by
  simp [appended]

theorem table_pages_append (a b : List scatterlist) :
    table_pages (a ++ b) = table_pages a + table_pages b := by
  simp [table_pages]

theorem table_pages_batch (n : Nat) : table_pages [{ length := n * PAGE_SIZE }] = n := by
  simp only [table_pages, List.map_cons, List.map_nil, List.sum_cons, List.sum_nil,
    DIV_ROUND_UP, PAGE_SIZE]
  omega

/-- A run of the loop that ends normally, all of whose pin calls returned a
positive count no larger than the request, consumes exactly `npages` pages. -/
theorem pin_loop_good (env : Env) (force : Bool) :
    ∀ (fuel : Nat) (st ps : PinState),
      pin_loop env force fuel st = some (0, ps) →
      ∃ evs, ps.trace = st.trace ++ evs ∧
        ((∀ s nr f r, Event.pin_user_pages_fast s nr f r ∈ evs → 0 < r ∧ r ≤ (nr : Int)) →
          st.cur_base + st.npages * PAGE_SIZE < WORD →
          ps.npages = 0 ∧
          ps.cur_base = st.cur_base + st.npages * PAGE_SIZE ∧
          table_pages ps.sgl = table_pages st.sgl + st.npages ∧
          appended evs = st.npages ∧
          evs.foldl cursor_step (some st.cur_base) = some ps.cur_base) := by
  intro fuel
  induction fuel with
  | zero =>
    intro st ps h
    rcases pin_loop_cases env force 0 st 0 ps h with
      ⟨h0, _, rfl⟩ | ⟨_, h1, h2, _⟩ | ⟨_, _, h1, h2, _⟩ | ⟨_, _, _, f, hf, _⟩
    · exact ⟨[], by simp, fun _ _ => by simp [h0, appended]⟩
    · omega
    · exact absurd h2.symm h1
    · omega
  | succ fuel ih =>
    intro st ps h
    rcases pin_loop_cases env force (fuel + 1) st 0 ps h with
      ⟨h0, _, rfl⟩ | ⟨_, h1, h2, _⟩ | ⟨_, _, h1, h2, _⟩ | ⟨hn, hp, ha, f, hf, hrec⟩
    · exact ⟨[], by simp, fun _ _ => by simp [h0, appended]⟩
    · omega
    · exact absurd h2.symm h1
    · have hf2 : f = fuel := by omega
      subst hf2
      obtain ⟨evs, htr, hrest⟩ := ih _ _ hrec
      refine ⟨[Event.cond_resched,
          Event.pin_user_pages_fast st.cur_base (pin_request st) force (pin_answer env st),
          Event.sg_alloc_append (pin_answer env st).toNat (pin_left env st)
            (append_answer env st)] ++ evs, ?_, ?_⟩
      · rw [htr]
        simp [pin_next, append_trace, pin_trace]
      · intro hgood hbound
        have hr := hgood st.cur_base (pin_request st) force (pin_answer env st) (by simp)
        have hreq : pin_request st ≤ st.npages := by
          unfold pin_request; exact Nat.min_le_left _ _
        have hleft : pin_left env st = st.npages - (pin_answer env st).toNat := by
          unfold pin_left
          simp only [WORD, PAGE_SIZE] at *
          omega
        have hcur : pin_cursor_next env st = st.cur_base + (pin_answer env st).toNat * PAGE_SIZE := by
          unfold pin_cursor_next
          simp only [WORD, PAGE_SIZE] at *
          omega
        have hnext := hrest (fun s nr f r hm => hgood s nr f r (by simp [hm]))
          (by
            simp only [pin_next, hleft, hcur]
            simp only [WORD, PAGE_SIZE] at *
            omega)
        obtain ⟨e1, e2, e3, e4, e5⟩ := hnext
        simp only [pin_next, hleft, hcur] at e2 e3 e5
        refine ⟨e1, ?_, ?_, ?_, ?_⟩
        · rw [e2]; simp only [PAGE_SIZE]; omega
        · rw [e3, table_pages_append, table_pages_batch]; omega
        · rw [appended_append, e4]
          simp only [pin_next, hleft, appended, List.map_cons, List.map_nil, List.sum_cons,
            List.sum_nil, Event.appended_pages, ha, if_true]
          omega
        · rw [List.foldl_append]
          have hnn : ¬ (pin_answer env st < 0) := by omega
          simp only [List.foldl_cons, List.foldl_nil, cursor_step, if_true, hnn, if_false]
          exact e5

theorem pin_cursor_append (c : Nat) (a b : List Event) :
    pin_cursor c (a ++ b) = b.foldl cursor_step (pin_cursor c a) := by
  simp [pin_cursor, List.foldl_append]

/-- C3: when `ib_umem_get` succeeds and every pin call it made returned a
positive count no larger than the batch asked for, the pages appended to the
table over all batches, and the pages the table then holds, number
`(PAGE_ALIGN(addr + size) - (addr rounded down to a page)) / PAGE_SIZE`, which is
the region's page count, and the pin cursor went from the page containing `addr`
over exactly that many pages. -/
theorem ib_umem_get_pins_page_count (env : Env) (mm : mm_struct) (addr size : Nat)
    (access : Access) (fuel : Nat) (out : Outcome) (umem : ib_umem)
    (ha : addr < WORD) (hs : size < WORD)
    (h : ib_umem_get env mm addr size access fuel = some out)
    (hok : out.result = UmemResult.ok umem)
    (hpin : ∀ s nr f r, Event.pin_user_pages_fast s nr f r ∈ out.trace →
      0 < r ∧ r ≤ (nr : Int)) :
    ib_umem_num_pages umem = spec_page_count addr size ∧
    appended out.trace = spec_page_count addr size ∧
    table_pages umem.sgl = spec_page_count addr size ∧
    pin_cursor (addr / PAGE_SIZE * PAGE_SIZE) out.trace
      = some (addr / PAGE_SIZE * PAGE_SIZE + spec_page_count addr size * PAGE_SIZE) := by
  obtain ⟨hr, _, _, ps, hloop, _, rfl, _, htr⟩ :=
    ib_umem_get_ok_inv env mm addr size access fuel out umem h hok
  obtain ⟨hnum, hbound⟩ := num_pages_eq_spec addr size access ha hs hr
  obtain ⟨evs, hevs, hrest⟩ := pin_loop_good env _ fuel _ ps hloop
  rw [hnum] at hevs hrest
  simp only [pin_start] at hevs hrest
  rw [and_page_mask addr ha] at hrest
  rw [htr, hevs] at hpin
  obtain ⟨_, e2, e3, e4, e5⟩ := hrest
    (fun s nr f r hm => hpin s nr f r (by simp [hm])) hbound
  refine ⟨hnum, ?_, ?_, ?_⟩
  · rw [htr, hevs]
    simp only [appended_append, e4]
    simp [appended, Event.appended_pages, setup_trace]
  · simpa [table_pages] using e3
  · rw [htr, hevs]
    rw [pin_cursor_append, pin_cursor_append, pin_cursor_append]
    have h0 : pin_cursor (addr / PAGE_SIZE * PAGE_SIZE)
        (setup_trace ++ [Event.pinned_vm_add (spec_page_count addr size)])
        = some (addr / PAGE_SIZE * PAGE_SIZE) := by
      simp [pin_cursor, setup_trace, cursor_step]
    rw [h0, e5, e2]
    simp [cursor_step]

/-- C3 at a concrete input: three pages, pinned in a batch of two and a batch
of one. -/
theorem ib_umem_get_pins_page_count_witness :
    ib_umem_get env_short mm_zero 100 8192 access_rw 3 = some out_short ∧
    appended out_short.trace = spec_page_count 100 8192 ∧
    pin_cursor (100 / PAGE_SIZE * PAGE_SIZE) out_short.trace
      = some (100 / PAGE_SIZE * PAGE_SIZE + spec_page_count 100 8192 * PAGE_SIZE) :=
  have h : ib_umem_get env_short mm_zero 100 8192 access_rw 3 = some out_short := by decide
  have hc := ib_umem_get_pins_page_count env_short mm_zero 100 8192 access_rw 3 out_short
    umem_short (by decide) (by decide) h rfl (by
      intro s nr f r hm
      simp only [out_short, setup_trace, List.cons_append, List.nil_append, List.mem_cons,
        Event.pin_user_pages_fast.injEq, List.mem_singleton, reduceCtorEq, false_or,
        or_false, List.not_mem_nil] at hm
      rcases hm with ⟨-, rfl, -, rfl⟩ | ⟨-, rfl, -, rfl⟩ <;> decide)
  ⟨h, hc.2.1, hc.2.2.2⟩

theorem range_overflows_iff (addr size : Nat) (ha : addr < WORD) (hs : size < WORD) :
    range_overflows addr size = true ↔
      (addr + size > WORD - 1 ∨
       (addr + size + (PAGE_SIZE - 1)) / PAGE_SIZE * PAGE_SIZE > WORD - 1) := by
  have hmod : ∀ y, y % WORD < WORD := fun y => Nat.mod_lt _ (by decide)
  simp only [range_overflows, Bool.or_eq_true, decide_eq_true_eq, PAGE_ALIGN]
  rw [and_page_mask _ (hmod _)]
  simp only [WORD, PAGE_SIZE] at *
  omega

/-- What a completed run of the pinning loop adds to the recorded services: a
suffix; a pin call that returned a negative value is its last event, and that
value is the loop's `ret`. -/
theorem pin_loop_trace (env : Env) (force : Bool) :
    ∀ (fuel : Nat) (st : PinState) (ret : Int) (ps : PinState),
      pin_loop env force fuel st = some (ret, ps) →
      ∃ evs, ps.trace = st.trace ++ evs ∧
        ∀ s nr f r, Event.pin_user_pages_fast s nr f r ∈ evs → r < 0 →
          ret = r ∧ ∃ pre, evs = pre ++ [Event.pin_user_pages_fast s nr f r] := by
  intro fuel
  induction fuel with
  | zero =>
    intro st ret ps h
    rcases pin_loop_cases env force 0 st ret ps h with
      ⟨_, _, rfl⟩ | ⟨_, h1, h2, rfl⟩ | ⟨_, h0, _, _, rfl⟩ | ⟨_, _, _, f, hf, _⟩
    · exact ⟨[], by simp, fun s nr f r hm => by simp at hm⟩
    · refine ⟨[Event.cond_resched, Event.pin_user_pages_fast st.cur_base (pin_request st)
        force (pin_answer env st)], by simp [pin_failed, pin_trace], ?_⟩
      intro s nr f r hm _
      simp only [List.mem_cons, reduceCtorEq, false_or, List.mem_singleton, List.not_mem_nil,
        or_false] at hm
      rw [hm]
      injection hm with e1 e2 e3 e4
      exact ⟨by rw [h2, e4], [Event.cond_resched], rfl⟩
    · refine ⟨[Event.cond_resched, Event.pin_user_pages_fast st.cur_base (pin_request st)
        force (pin_answer env st), Event.sg_alloc_append (pin_answer env st).toNat
        (pin_left env st) (append_answer env st),
        Event.unpin_user_pages (pin_answer env st).toNat],
        by simp [append_failed, append_trace, pin_trace], ?_⟩
      intro s nr f r hm hr
      simp only [List.mem_cons, reduceCtorEq, false_or, List.mem_singleton, List.not_mem_nil,
        or_false] at hm
      injection hm with e1 e2 e3 e4
      omega
    · omega
  | succ fuel ih =>
    intro st ret ps h
    rcases pin_loop_cases env force (fuel + 1) st ret ps h with
      ⟨_, _, rfl⟩ | ⟨_, h1, h2, rfl⟩ | ⟨_, h0, _, _, rfl⟩ | ⟨_, h0, _, f, hf, hrec⟩
    · exact ⟨[], by simp, fun s nr f r hm => by simp at hm⟩
    · refine ⟨[Event.cond_resched, Event.pin_user_pages_fast st.cur_base (pin_request st)
        force (pin_answer env st)], by simp [pin_failed, pin_trace], ?_⟩
      intro s nr f r hm _
      simp only [List.mem_cons, reduceCtorEq, false_or, List.mem_singleton, List.not_mem_nil,
        or_false] at hm
      rw [hm]
      injection hm with e1 e2 e3 e4
      exact ⟨by rw [h2, e4], [Event.cond_resched], rfl⟩
    · refine ⟨[Event.cond_resched, Event.pin_user_pages_fast st.cur_base (pin_request st)
        force (pin_answer env st), Event.sg_alloc_append (pin_answer env st).toNat
        (pin_left env st) (append_answer env st),
        Event.unpin_user_pages (pin_answer env st).toNat],
        by simp [append_failed, append_trace, pin_trace], ?_⟩
      intro s nr f r hm hr
      simp only [List.mem_cons, reduceCtorEq, false_or, List.mem_singleton, List.not_mem_nil,
        or_false] at hm
      injection hm with e1 e2 e3 e4
      omega
    · have hf2 : f = fuel := by omega
      subst hf2
      obtain ⟨evs, htr, hrest⟩ := ih _ _ _ hrec
      refine ⟨[Event.cond_resched,
          Event.pin_user_pages_fast st.cur_base (pin_request st) force (pin_answer env st),
          Event.sg_alloc_append (pin_answer env st).toNat (pin_left env st)
            (append_answer env st)] ++ evs, ?_, ?_⟩
      · rw [htr]
        simp [pin_next, append_trace, pin_trace]
      · intro s nr f r hm hr
        simp only [List.cons_append, List.nil_append, List.mem_cons, reduceCtorEq,
          false_or] at hm
        rcases hm with hm | hm
        · injection hm with e1 e2 e3 e4
          omega
        · obtain ⟨e, pre, hpre⟩ := hrest s nr f r hm hr
          exact ⟨e, [Event.cond_resched,
            Event.pin_user_pages_fast st.cur_base (pin_request st) force (pin_answer env st),
            Event.sg_alloc_append (pin_answer env st).toNat (pin_left env st)
              (append_answer env st)] ++ pre, by rw [hpre]; simp⟩

theorem after_loop_trace (env : Env) (access : Access) (u : ib_umem) (mm : mm_struct) (ret : Int)
    (ps : PinState) :
    ∃ post, (after_loop env access u mm ret ps).trace = ps.trace ++ post := by
  unfold after_loop
  by_cases h1 : ret ≠ 0
  · rw [if_pos h1]
    exact ⟨_, by simp only [umem_release_path, List.append_assoc]; rfl⟩
  · rw [if_neg h1]
    by_cases h2 : (env.dma_map ps.sgl).1 ≠ 0
    · simp only [if_pos h2]
      exact ⟨_, by simp only [umem_release_path, List.append_assoc]; rfl⟩
    · simp only [if_neg h2]
      exact ⟨_, by simp only [List.append_assoc]; rfl⟩

/-- The pinning loop returns when the pin service keeps to its contract, a
negative value or a positive count no larger than the request, and the fuel
covers the pages left. -/
theorem pin_loop_terminates (env : Env) (force : Bool)
    (hpin : ∀ i s nr, 0 < nr →
      env.pin_user_pages_fast i s nr < 0 ∨
      (0 < env.pin_user_pages_fast i s nr ∧ env.pin_user_pages_fast i s nr ≤ (nr : Int))) :
    ∀ (fuel : Nat) (st : PinState), st.npages ≤ fuel → st.npages < WORD →
      ∃ r, pin_loop env force fuel st = some r := by
  intro fuel
  induction fuel with
  | zero =>
    intro st h0 _
    exact ⟨(0, st), by unfold pin_loop; rw [if_pos (by omega)]⟩
  | succ fuel ih =>
    intro st hle hw
    unfold pin_loop
    by_cases h0 : st.npages = 0
    · exact ⟨_, by rw [if_pos h0]⟩
    rw [if_neg h0]
    by_cases h1 : pin_answer env st < 0
    · exact ⟨_, by rw [if_pos h1]⟩
    rw [if_neg h1]
    by_cases h2 : append_answer env st ≠ 0
    · exact ⟨_, by rw [if_pos h2]⟩
    rw [if_neg h2]
    have hreq : 0 < pin_request st := by
      unfold pin_request
      simp only [PAGE_SIZE]
      omega
    have hreq2 : pin_request st ≤ st.npages := by
      unfold pin_request; exact Nat.min_le_left _ _
    have hans := hpin st.calls st.cur_base (pin_request st) hreq
    have hans2 : 0 < pin_answer env st ∧ pin_answer env st ≤ (pin_request st : Int) := by
      rcases hans with h | h
      · exact absurd h h1
      · exact h
    have hleft : (pin_next env force st).npages = st.npages - (pin_answer env st).toNat := by
      simp only [pin_next, pin_left]
      simp only [WORD] at *
      omega
    apply ih
    · rw [hleft]; omega
    · rw [hleft]; omega

/-- `ib_umem_get` returns when the pin service keeps to its contract and the
fuel covers the largest page count the function accepts. -/
theorem ib_umem_get_returns (env : Env) (mm : mm_struct) (addr size : Nat) (access : Access)
    (fuel : Nat) (hfuel : UINT_MAX ≤ fuel)
    (hpin : ∀ i s nr, 0 < nr →
      env.pin_user_pages_fast i s nr < 0 ∨
      (0 < env.pin_user_pages_fast i s nr ∧ env.pin_user_pages_fast i s nr ≤ (nr : Int))) :
    ∃ out, ib_umem_get env mm addr size access fuel = some out := by
  unfold ib_umem_get
  by_cases h1 : range_overflows addr size = true
  · exact ⟨_, by rw [if_pos h1]⟩
  rw [if_neg h1]
  by_cases h2 : (!env.can_do_mlock) = true
  · exact ⟨_, by rw [if_pos h2]⟩
  rw [if_neg h2]
  by_cases h3 : access.on_demand = true
  · exact ⟨_, by rw [if_pos h3]⟩
  rw [if_neg h3]
  by_cases h4 : (!env.kzalloc_ok) = true
  · exact ⟨_, by rw [if_pos h4]⟩
  rw [if_neg h4]
  simp only
  by_cases h5 : (!env.get_free_page_ok) = true
  · exact ⟨_, by rw [if_pos h5]⟩
  rw [if_neg h5]
  by_cases h6 : ib_umem_num_pages (new_umem addr size access) = 0 ∨
      ib_umem_num_pages (new_umem addr size access) > UINT_MAX
  · exact ⟨_, by rw [if_pos h6]⟩
  rw [if_neg h6]
  by_cases h7 : (atomic64_add (ib_umem_num_pages (new_umem addr size access))
      (mmgrab mm)).pinned_vm > env.rlimit_memlock >>> PAGE_SHIFT ∧
      (!env.capable_ipc_lock) = true
  · exact ⟨_, by rw [if_pos h7]⟩
  rw [if_neg h7]
  have hn : ib_umem_num_pages (new_umem addr size access) ≤ UINT_MAX :=
    Nat.le_of_not_lt (fun h0 => h6 (Or.inr h0))
  obtain ⟨r, hr⟩ := pin_loop_terminates env (!(new_umem addr size access).writable) hpin fuel
    (pin_start addr (ib_umem_num_pages (new_umem addr size access))
      (setup_trace ++ [Event.pinned_vm_add (ib_umem_num_pages (new_umem addr size access))]))
    (by simp only [pin_start]; omega)
    (by simp only [pin_start, WORD, UINT_MAX] at *; omega)
  rw [hr]
  exact ⟨_, rfl⟩

/-- C4: the opening test of `ib_umem_get` rejects exactly the machine words
`addr`, `size` whose sum, or whose sum rounded up to a page boundary, exceeds the
largest machine word; when it rejects, `-EINVAL` is returned with no service
called and the process state untouched; when it does not, the run goes on to the
mlock permission check. -/
theorem ib_umem_get_range_check (addr size : Nat) (ha : addr < WORD) (hs : size < WORD) :
    (range_overflows addr size = true ↔
      (addr + size > WORD - 1 ∨
       (addr + size + (PAGE_SIZE - 1)) / PAGE_SIZE * PAGE_SIZE > WORD - 1)) ∧
    (range_overflows addr size = true →
      ∀ env mm access fuel, ib_umem_get env mm addr size access fuel
        = some { result := UmemResult.err (-EINVAL), mm := mm, trace := [] }) ∧
    (range_overflows addr size = false →
      ∀ env mm access fuel out, ib_umem_get env mm addr size access fuel = some out →
        out.trace.head? = some Event.can_do_mlock) := by
  refine ⟨range_overflows_iff addr size ha hs, ?_, ?_⟩
  · intro hr env mm access fuel
    unfold ib_umem_get
    rw [if_pos hr]
  · intro hr env mm access fuel out h
    rcases ib_umem_get_inv env mm addr size access fuel out h with
      ⟨hr2, _⟩ | ⟨_, rfl | rfl | rfl | rfl | rfl | rfl | ⟨_, _, ret, ps, hloop, rfl⟩⟩
    · rw [hr] at hr2; exact absurd hr2 (by simp)
    · rfl
    · rfl
    · rfl
    · rfl
    · rfl
    · rfl
    · obtain ⟨evs, hevs, _⟩ := pin_loop_trace env _ fuel _ ret ps hloop
      obtain ⟨post, hpost⟩ := after_loop_trace env access (new_umem addr size access)
        (atomic64_add (ib_umem_num_pages (new_umem addr size access)) (mmgrab mm)) ret ps
      rw [hpost, hevs]
      rfl

/-- C4 at a concrete input: one byte in the last page of the address space;
the sum fits in a machine word but its page rounding does not. -/
theorem ib_umem_get_range_check_witness :
    range_overflows (2 ^ 64 - 4096) 1 = true ∧
    ib_umem_get env_ok mm_zero (2 ^ 64 - 4096) 1 access_rw 0
      = some { result := UmemResult.err (-EINVAL), mm := mm_zero, trace := [] } :=
  ⟨by decide,
   (ib_umem_get_range_check (2 ^ 64 - 4096) 1 (by decide) (by decide)).2.1 (by decide)
     env_ok mm_zero access_rw 0⟩

/-! ### Bit-level facts -/

theorem two_pow_dvd_iff_testBit (k n : Nat) :
    2 ^ k ∣ n ↔ ∀ j, j < k → n.testBit j = false := by
  rw [Nat.dvd_iff_mod_eq_zero]
  constructor
  · intro h j hj
    have := Nat.testBit_mod_two_pow n k j
    rw [h] at this
    simp only [Nat.zero_testBit, hj, decide_True, Bool.true_and] at this
    exact this.symm
  · intro h
    apply Nat.eq_of_testBit_eq
    intro j
    rw [Nat.testBit_mod_two_pow, Nat.zero_testBit]
    by_cases hj : j < k
    · simp [h j hj]
    · simp [hj]

theorem two_pow_dvd_or (k a b : Nat) : 2 ^ k ∣ (a ||| b) ↔ 2 ^ k ∣ a ∧ 2 ^ k ∣ b := by
  simp only [two_pow_dvd_iff_testBit, Nat.testBit_or, Bool.or_eq_false_iff]
  constructor
  · intro h
    exact ⟨fun j hj => (h j hj).1, fun j hj => (h j hj).2⟩
  · intro h j hj
    exact ⟨h.1 j hj, h.2 j hj⟩

theorem two_pow_dvd_xor (k a b : Nat) : 2 ^ k ∣ (a ^^^ b) ↔ a % 2 ^ k = b % 2 ^ k := by
  rw [two_pow_dvd_iff_testBit]
  constructor
  · intro h
    apply Nat.eq_of_testBit_eq
    intro j
    rw [Nat.testBit_mod_two_pow, Nat.testBit_mod_two_pow]
    by_cases hj : j < k
    · have := h j hj
      rw [Nat.testBit_xor] at this
      simp only [hj, decide_True, Bool.true_and]
      cases ha : a.testBit j <;> cases hb : b.testBit j <;> simp [ha, hb] at this ⊢
    · simp [hj]
  · intro h j hj
    have h1 := Nat.testBit_mod_two_pow a k j
    have h2 := Nat.testBit_mod_two_pow b k j
    rw [h] at h1
    rw [h1] at h2
    simp only [hj, decide_True, Bool.true_and] at h2
    rw [Nat.testBit_xor, h2]
    simp

theorem testBit_log2 (n : Nat) (h : n ≠ 0) : n.testBit (Nat.log2 n) = true := by
  have h1 := Nat.log2_self_le h
  have h2 := @Nat.lt_log2_self n
  rw [Nat.testBit_to_div_mod]
  have : n / 2 ^ n.log2 = 1 := by
    apply Nat.div_eq_of_lt_le
    · simpa using h1
    · rw [Nat.pow_succ] at h2; omega
  simp [this]

theorem log2_le_of_testBit (n k : Nat) (h : n.testBit k = true) : k ≤ Nat.log2 n := by
  have h1 := Nat.testBit_implies_ge h
  have h2 := @Nat.lt_log2_self n
  have : 2 ^ k < 2 ^ (n.log2 + 1) := Nat.lt_of_le_of_lt h1 h2
  have := (Nat.pow_lt_pow_iff_right (by decide : 1 < 2)).mp this
  omega

/-- The scan finds the lowest set bit of a non-zero word. -/
theorem ctz_go_spec : ∀ (fuel n : Nat), n ≠ 0 → n < 2 ^ fuel →
    n.testBit (ctz_go fuel n) = true ∧ ∀ j, j < ctz_go fuel n → n.testBit j = false := by
  intro fuel
  induction fuel with
  | zero =>
    intro n h0 hlt
    simp at hlt
    omega
  | succ fuel ih =>
    intro n h0 hlt
    unfold ctz_go
    by_cases h1 : n % 2 = 1
    · rw [if_pos h1]
      exact ⟨by simp [h1], fun j hj => by omega⟩
    · rw [if_neg h1]
      have hn2 : n / 2 ≠ 0 := by omega
      have hlt2 : n / 2 < 2 ^ fuel := by
        rw [Nat.pow_succ] at hlt; omega
      obtain ⟨ih1, ih2⟩ := ih (n / 2) hn2 hlt2
      refine ⟨by rw [Nat.testBit_add_one]; exact ih1, ?_⟩
      intro j hj
      cases j with
      | zero => simp [h1]
      | succ j =>
        rw [Nat.testBit_add_one]
        exact ih2 j (by omega)

theorem ctz_spec (x : Nat) (h0 : x ≠ 0) (hx : x < WORD) :
    x.testBit (count_trailing_zeros x) = true ∧
    ∀ j, j < count_trailing_zeros x → x.testBit j = false :=
  ctz_go_spec 64 x h0 hx

theorem ctz_le (x : Nat) (h0 : x ≠ 0) (hx : x < WORD) : count_trailing_zeros x ≤ 63 := by
  have := testBit_word_lt x _ hx (ctz_spec x h0 hx).1
  omega

theorem ilog2_go_eq_log2 : ∀ (fuel n : Nat), n < 2 ^ fuel → ilog2_go fuel n = Nat.log2 n := by
  intro fuel
  induction fuel with
  | zero =>
    intro n hn
    have h0 : n = 0 := by simp at hn; omega
    subst h0
    simp [ilog2_go, Nat.log2_zero]
  | succ fuel ih =>
    intro n hn
    unfold ilog2_go
    rw [Nat.log2]
    by_cases h2 : n < 2
    · rw [if_pos h2, if_neg (by omega)]
    · rw [if_neg h2, if_pos (by omega)]
      rw [ih (n / 2) (by rw [Nat.pow_succ] at hn; omega)]

theorem ilog2_eq_log2 (n : Nat) (hn : n < WORD) : ilog2 n = Nat.log2 n :=
  ilog2_go_eq_log2 64 n hn

theorem testBit_ilog2 (n : Nat) (h : n ≠ 0) (hn : n < WORD) : n.testBit (ilog2 n) = true := by
  rw [ilog2_eq_log2 n hn]
  exact testBit_log2 n h

theorem ilog2_le_of_testBit (n k : Nat) (hn : n < WORD) (h : n.testBit k = true) :
    k ≤ ilog2 n := by
  rw [ilog2_eq_log2 n hn]
  exact log2_le_of_testBit n k h

/-- The value returned is a page size of the bitmap that divides the accumulated
mask. -/
theorem pgsz_result_spec (bitmap mask : Nat) (hb : bitmap < WORD) (hm : mask < WORD)
    (h : pgsz_result bitmap mask ≠ 0) :
    ∃ k, pgsz_result bitmap mask = 2 ^ k ∧ bitmap.testBit k = true ∧ 2 ^ k ∣ mask := by
  unfold pgsz_result at h ⊢
  by_cases h0 : mask ≠ 0
  · simp only [if_pos h0] at h ⊢
    by_cases hb0 : bitmap &&& GENMASK (count_trailing_zeros mask) 0 ≠ 0
    · rw [if_pos hb0]
      have ht := testBit_ilog2 _ hb0 (Nat.lt_of_le_of_lt Nat.and_le_left hb)
      rw [Nat.testBit_and, testBit_GENMASK _ _ _ (ctz_le mask h0 hm) (by decide)] at ht
      simp only [Bool.and_eq_true, decide_eq_true_eq] at ht
      refine ⟨_, rfl, ht.1, ?_⟩
      rw [two_pow_dvd_iff_testBit]
      intro j hj
      exact (ctz_spec mask h0 hm).2 j (by omega)
    · rw [if_neg hb0] at h
      exact absurd rfl h
  · have hz : mask = 0 := not_not.mp h0
    simp only [if_neg h0] at h ⊢
    by_cases hb0 : bitmap ≠ 0
    · rw [if_pos hb0]
      exact ⟨_, rfl, testBit_ilog2 _ hb0 hb, by rw [hz]; exact Nat.dvd_zero _⟩
    · rw [if_neg hb0] at h
      exact absurd rfl h

/-! ### The walk over the DMA segments -/

theorem pgsz_step_disc (i : Nat) (sg : DmaSeg) (s : PgszState)
    (h : s.curr_base + s.curr_len ≥ WORD ∨ s.curr_base + s.curr_len ≠ sg.dma_address) :
    pgsz_step i sg s =
      { mask := if i ≠ 0 then
                  (s.mask ||| (((sg.dma_address + s.pgoff) % WORD) ^^^ s.va)) ||| s.va
                else s.mask ||| (((sg.dma_address + s.pgoff) % WORD) ^^^ s.va),
        curr_base := sg.dma_address,
        curr_len := (0 + sg.dma_len) % WORD,
        va := (s.va + sg.dma_len + WORD - s.pgoff) % WORD,
        pgoff := 0 } := by
  unfold pgsz_step
  simp only [if_pos h]

theorem pgsz_step_contig (i : Nat) (sg : DmaSeg) (s : PgszState)
    (h : ¬ (s.curr_base + s.curr_len ≥ WORD ∨ s.curr_base + s.curr_len ≠ sg.dma_address)) :
    pgsz_step i sg s =
      { mask := s.mask,
        curr_base := s.curr_base,
        curr_len := (s.curr_len + sg.dma_len) % WORD,
        va := (s.va + sg.dma_len + WORD - s.pgoff) % WORD,
        pgoff := 0 } := by
  unfold pgsz_step
  simp only [if_neg h]

theorem pgsz_step_mask_dvd (k i : Nat) (sg : DmaSeg) (s : PgszState)
    (h : 2 ^ k ∣ (pgsz_step i sg s).mask) : 2 ^ k ∣ s.mask := by
  by_cases hd : s.curr_base + s.curr_len ≥ WORD ∨ s.curr_base + s.curr_len ≠ sg.dma_address
  · rw [pgsz_step_disc i sg s hd] at h
    by_cases hi : i ≠ 0
    · simp only [if_pos hi] at h
      exact ((two_pow_dvd_or _ _ _).mp ((two_pow_dvd_or _ _ _).mp h).1).1
    · simp only [if_neg hi] at h
      exact ((two_pow_dvd_or _ _ _).mp h).1
  · rw [pgsz_step_contig i sg s hd] at h
    exact h

theorem pgsz_walk_mask_dvd (k : Nat) : ∀ (rest : List DmaSeg) (i : Nat) (s : PgszState),
    2 ^ k ∣ (pgsz_walk i s rest).mask → 2 ^ k ∣ s.mask := by
  intro rest
  induction rest with
  | nil => intro i s h; exact h
  | cons x xs ih =>
    intro i s h
    exact pgsz_step_mask_dvd k i x s (ih (i + 1) _ h)

theorem pgsz_step_va_lt (i : Nat) (sg : DmaSeg) (s : PgszState) :
    (pgsz_step i sg s).va < WORD := by
  unfold pgsz_step
  exact Nat.mod_lt _ (by decide)

theorem pgsz_step_mask_lt (i : Nat) (sg : DmaSeg) (s : PgszState)
    (hm : s.mask < WORD) (hv : s.va < WORD) : (pgsz_step i sg s).mask < WORD := by
  have hx : ((sg.dma_address + s.pgoff) % WORD) ^^^ s.va < 2 ^ 64 :=
    Nat.xor_lt_two_pow (Nat.mod_lt _ (by decide)) hv
  by_cases hd : s.curr_base + s.curr_len ≥ WORD ∨ s.curr_base + s.curr_len ≠ sg.dma_address
  · rw [pgsz_step_disc i sg s hd]
    by_cases hi : i ≠ 0
    · simp only [if_pos hi]
      exact Nat.or_lt_two_pow (Nat.or_lt_two_pow hm hx) hv
    · simp only [if_neg hi]
      exact Nat.or_lt_two_pow hm hx
  · rw [pgsz_step_contig i sg s hd]
    exact hm

theorem pgsz_walk_mask_lt : ∀ (rest : List DmaSeg) (i : Nat) (s : PgszState),
    s.mask < WORD → s.va < WORD → (pgsz_walk i s rest).mask < WORD := by
  intro rest
  induction rest with
  | nil => intro i s hm _; exact hm
  | cons x xs ih =>
    intro i s hm hv
    exact ih (i + 1) _ (pgsz_step_mask_lt i x s hm hv) (pgsz_step_va_lt i x s)

theorem run_va_append (virt pgoff : Nat) (pre rest : List DmaSeg) (i : Nat)
    (hi : i ≤ pre.length) :
    run_va virt pgoff (pre ++ rest) i = run_va virt pgoff pre i := by
  unfold run_va
  rw [List.take_append_of_le_length hi]

theorem getElem?_pred_append (pre rest : List DmaSeg) (h : pre ≠ []) :
    (pre ++ rest)[pre.length - 1]? = pre.getLast? := by
  have hl : 0 < pre.length := List.length_pos.mpr h
  rw [List.getElem?_append_left (by omega), List.getLast?_eq_getElem?]

theorem mod_word_mod (y k : Nat) (hk : k ≤ 64) : y % WORD % 2 ^ k = y % 2 ^ k :=
  Nat.mod_mod_of_dvd y (Nat.pow_dvd_pow 2 hk)

/-- One step keeps the relation between the locals and the spec-side notions. -/
theorem WalkInv_step (virt pgoff : Nat) (hpg : pgoff < PAGE_SIZE) (pre : List DmaSeg)
    (x : DmaSeg) (s : PgszState) (hinv : WalkInv virt pgoff pre s)
    (hlen : s.curr_len + x.dma_len < WORD) :
    WalkInv virt pgoff (pre ++ [x]) (pgsz_step pre.length x s) := by
  obtain ⟨hva, hvalt, hpgoff, hnil, hlast⟩ := hinv
  have hva2 : (s.va + x.dma_len + WORD - s.pgoff) % WORD
      = run_va virt pgoff (pre ++ [x]) (pre ++ [x]).length := by
    unfold run_va at hva ⊢
    rw [List.take_length] at hva ⊢
    simp only [List.length_append, List.length_singleton, Nat.add_one_ne_zero, if_false,
      List.map_append, List.map_cons, List.map_nil, List.sum_append,
      List.sum_cons, List.sum_nil] at hva ⊢
    by_cases h0 : pre.length = 0
    · have hp : pre = [] := List.length_eq_zero.mp h0
      subst hp
      simp only [List.length_nil, if_true] at hva hpgoff
      rw [hva, hpgoff]
      simp only [WORD, PAGE_SIZE, List.map_nil, List.sum_nil] at *
      omega
    · simp only [if_neg h0] at hva hpgoff
      rw [hva, hpgoff]
      simp only [WORD, PAGE_SIZE] at *
      omega
  refine ⟨?_, pgsz_step_va_lt _ _ _, ?_, ?_, ?_⟩
  · rw [← hva2]
    unfold pgsz_step
    simp only
    split_ifs <;> rfl
  · unfold pgsz_step
    simp
  · intro h
    simp at h
  · intro a ha
    rw [List.getLast?_concat] at ha
    simp only [Option.some.injEq] at ha
    subst ha
    by_cases hd : s.curr_base + s.curr_len ≥ WORD ∨ s.curr_base + s.curr_len ≠ x.dma_address
    · rw [pgsz_step_disc _ x s hd]
      simp only [WORD] at *
      omega
    · rw [pgsz_step_contig _ x s hd]
      simp only [WORD] at *
      omega

/-- A power of two that divides the mask left by the walk is a valid page size
at every run start the walk still has to visit. -/
theorem pgsz_walk_valid (virt pgoff k : Nat) (hk : k ≤ 64) (hpg : pgoff < PAGE_SIZE) :
    ∀ (rest pre : List DmaSeg) (s : PgszState),
      WalkInv virt pgoff pre s →
      s.curr_len + (rest.map DmaSeg.dma_len).sum < WORD →
      (∀ sg ∈ rest, sg.dma_address < WORD ∧ sg.dma_address % PAGE_SIZE = 0) →
      2 ^ k ∣ (pgsz_walk pre.length s rest).mask →
      ∀ i b, pre.length ≤ i → (pre ++ rest)[i]? = some b → is_run_start (pre ++ rest) i →
        (b.dma_address + (if i = 0 then pgoff else 0)) % 2 ^ k
            = run_va virt pgoff (pre ++ rest) i % 2 ^ k ∧
        (i ≠ 0 → run_va virt pgoff (pre ++ rest) i % 2 ^ k = 0) := by
  intro rest
  induction rest with
  | nil =>
    intro pre s _ _ _ _ i b hi hb _
    rw [List.append_nil] at hb
    rw [List.getElem?_eq_none (by omega)] at hb
    exact absurd hb (by simp)
  | cons x xs ih =>
    intro pre s hinv hlen hal hdvd i b hi hb hrun
    have hlen1 : s.curr_len + x.dma_len < WORD := by
      simp only [List.map_cons, List.sum_cons] at hlen; omega
    have hinv2 := WalkInv_step virt pgoff hpg pre x s hinv hlen1
    have hassoc : pre ++ x :: xs = (pre ++ [x]) ++ xs := by simp
    by_cases hieq : i = pre.length
    · subst hieq
      have hbx : b = x := by
        rw [List.getElem?_append_right (Nat.le_refl _)] at hb
        simpa using hb.symm
      subst hbx
      obtain ⟨hva, hvalt, hpgoff, hnil, hlast⟩ := hinv
      have hstep : 2 ^ k ∣ (pgsz_step pre.length b s).mask :=
        pgsz_walk_mask_dvd k xs (pre.length + 1) _ hdvd
      have hrv : run_va virt pgoff (pre ++ b :: xs) pre.length = s.va := by
        rw [run_va_append _ _ _ _ _ (Nat.le_refl _), hva]
      rw [hrv]
      have hb_al := hal b (by simp)
      by_cases hp : pre = []
      · subst hp
        obtain ⟨hcb, hcl⟩ := hnil rfl
        have hd : s.curr_base + s.curr_len ≥ WORD ∨
            s.curr_base + s.curr_len ≠ b.dma_address := by
          right
          rw [hcb, hcl]
          simp only [WORD, PAGE_SIZE] at *
          omega
        rw [pgsz_step_disc _ b s hd] at hstep
        simp only [List.length_nil, ne_eq, not_true_eq_false, if_false] at hstep
        have hx := (two_pow_dvd_xor _ _ _).mp ((two_pow_dvd_or _ _ _).mp hstep).2
        rw [mod_word_mod _ _ hk] at hx
        simp only [List.length_nil, if_true] at hpgoff ⊢
        rw [hpgoff] at hx
        exact ⟨hx, fun h => absurd rfl h⟩
      · have hl : 0 < pre.length := List.length_pos.mpr hp
        have hne : pre.length ≠ 0 := by omega
        rcases hrun with h0 | ⟨a, b2, ha, hb2, hneq⟩
        · omega
        · rw [getElem?_pred_append pre _ hp] at ha
          rw [hb] at hb2
          simp only [Option.some.injEq] at hb2
          subst hb2
          have hsum := hlast a ha
          have hd : s.curr_base + s.curr_len ≥ WORD ∨
              s.curr_base + s.curr_len ≠ b.dma_address := by
            right
            rw [hsum]
            exact hneq
          rw [pgsz_step_disc _ b s hd] at hstep
          simp only [if_pos hne, if_neg hne] at hstep hpgoff ⊢
          have h1 := (two_pow_dvd_or _ _ _).mp hstep
          have hx := (two_pow_dvd_xor _ _ _).mp ((two_pow_dvd_or _ _ _).mp h1.1).2
          rw [mod_word_mod _ _ hk, hpgoff] at hx
          exact ⟨hx, fun _ => Nat.mod_eq_zero_of_dvd h1.2⟩
    · have hi2 : (pre ++ [x]).length ≤ i := by
        simp only [List.length_append, List.length_singleton]; omega
      have hlen2 : (pgsz_step pre.length x s).curr_len + (xs.map DmaSeg.dma_len).sum < WORD := by
        simp only [List.map_cons, List.sum_cons] at hlen
        have : (pgsz_step pre.length x s).curr_len ≤ s.curr_len + x.dma_len := by
          by_cases hd : s.curr_base + s.curr_len ≥ WORD ∨
              s.curr_base + s.curr_len ≠ x.dma_address
          · rw [pgsz_step_disc _ x s hd]
            simp only [WORD] at *
            omega
          · rw [pgsz_step_contig _ x s hd]
            simp only [WORD] at *
            omega
        omega
      have hdvd2 : 2 ^ k ∣ (pgsz_walk (pre ++ [x]).length (pgsz_step pre.length x s) xs).mask := by
        simp only [List.length_append, List.length_singleton]
        exact hdvd
      rw [hassoc] at hb hrun ⊢
      exact ih (pre ++ [x]) _ hinv2 hlen2 (fun sg hsg => hal sg (by simp [hsg])) hdvd2 i b hi2
        hb hrun

theorem WalkInv_init (umem : ib_umem) (pgsz_bitmap virt : Nat) (hv : virt < WORD) :
    WalkInv virt (ib_umem_offset umem) [] (pgsz_init umem pgsz_bitmap virt) := by
  refine ⟨rfl, hv, rfl, fun _ => ⟨rfl, rfl⟩, ?_⟩
  intro a ha
  simp at ha

theorem pgsz_init_mask_lt (umem : ib_umem) (pgsz_bitmap virt : Nat) (hbm : pgsz_bitmap < WORD) :
    (pgsz_init umem pgsz_bitmap virt).mask < WORD :=
  Nat.lt_of_le_of_lt Nat.and_le_left hbm

/-- C5: for a non-ODP region whose DMA segment addresses are page-aligned
machine words (the segment lengths, at most `2 ^ 32` values below `2 ^ 32`, sum
to a machine word), a non-zero result of `ib_umem_find_best_pgsz` is a single
power of two whose bit is set in `pgsz_bitmap` and with which mapping at `virt`
is valid; hence the result is `0` when no page size of the bitmap is valid, in
particular when the bitmap has no bit at or below a bound `m` on the valid page
sizes. -/
theorem ib_umem_find_best_pgsz_valid (umem : ib_umem) (pgsz_bitmap virt : Nat)
    (hodp : umem.is_odp = false) (hbm : pgsz_bitmap < WORD) (hv : virt < WORD)
    (hal : ∀ sg ∈ umem.dma, sg.dma_address < WORD ∧ sg.dma_address % PAGE_SIZE = 0)
    (hlen : (umem.dma.map DmaSeg.dma_len).sum < WORD) :
    (ib_umem_find_best_pgsz umem pgsz_bitmap virt ≠ 0 →
      ∃ k, ib_umem_find_best_pgsz umem pgsz_bitmap virt = 2 ^ k ∧
        pgsz_bitmap.testBit k = true ∧
        valid_mapping umem.dma (ib_umem_offset umem) virt (2 ^ k)) ∧
    ((∀ k, pgsz_bitmap.testBit k = true →
        ¬ valid_mapping umem.dma (ib_umem_offset umem) virt (2 ^ k)) →
      ib_umem_find_best_pgsz umem pgsz_bitmap virt = 0) ∧
    (∀ m, (∀ k, valid_mapping umem.dma (ib_umem_offset umem) virt (2 ^ k) → k ≤ m) →
      (∀ k, pgsz_bitmap.testBit k = true → m < k) →
      ib_umem_find_best_pgsz umem pgsz_bitmap virt = 0) := by
  have main : ib_umem_find_best_pgsz umem pgsz_bitmap virt ≠ 0 →
      ∃ k, ib_umem_find_best_pgsz umem pgsz_bitmap virt = 2 ^ k ∧
        pgsz_bitmap.testBit k = true ∧
        valid_mapping umem.dma (ib_umem_offset umem) virt (2 ^ k) := by
    intro hne
    unfold ib_umem_find_best_pgsz at hne ⊢
    simp only [hodp, Bool.false_eq_true, if_false] at hne ⊢
    have hmlt := pgsz_walk_mask_lt umem.dma 0 (pgsz_init umem pgsz_bitmap virt)
      (pgsz_init_mask_lt umem pgsz_bitmap virt hbm) hv
    obtain ⟨k, hk1, hk2, hk3⟩ := pgsz_result_spec pgsz_bitmap _ hbm hmlt hne
    refine ⟨k, hk1, hk2, ?_⟩
    have hk64 : k ≤ 64 := Nat.le_of_lt (testBit_word_lt _ _ hbm hk2)
    have hpg : ib_umem_offset umem < PAGE_SIZE := Nat.mod_lt _ (by decide)
    intro i b hb hrun
    have := pgsz_walk_valid virt (ib_umem_offset umem) k hk64 hpg umem.dma []
      (pgsz_init umem pgsz_bitmap virt) (WalkInv_init umem pgsz_bitmap virt hv)
      (by simpa [pgsz_init] using hlen) hal hk3 i b (Nat.zero_le _)
      (by simpa using hb) (by simpa using hrun)
    simpa using this
  refine ⟨main, ?_, ?_⟩
  · intro hnone
    by_contra hne
    obtain ⟨k, _, hk2, hk3⟩ := main hne
    exact hnone k hk2 hk3
  · intro m hm hbits
    by_contra hne
    obtain ⟨k, _, hk2, hk3⟩ := main hne
    have h1 := hm k hk3
    have h2 := hbits k hk2
    omega

/-- C5 at a concrete input: two runs of two pages, page sizes 4K, 8K and 16K
supported; the break after 8K of virtual addresses allows 8K. -/
theorem ib_umem_find_best_pgsz_valid_witness :
    ib_umem_find_best_pgsz umem_two_runs 28672 0 = 8192 ∧
    ∃ k, ib_umem_find_best_pgsz umem_two_runs 28672 0 = 2 ^ k ∧
      (28672 : Nat).testBit k = true ∧
      valid_mapping umem_two_runs.dma (ib_umem_offset umem_two_runs) 0 (2 ^ k) :=
  ⟨by decide,
   (ib_umem_find_best_pgsz_valid umem_two_runs 28672 0 rfl (by decide) (by decide)
     (by decide) (by decide)).1 (by decide)⟩

/-- Over a physically contiguous tail the walk leaves the mask alone. -/
theorem pgsz_walk_contig : ∀ (rest : List DmaSeg) (prev : DmaSeg) (i : Nat) (s : PgszState),
    contiguous_chain (prev :: rest) →
    s.curr_base + s.curr_len = prev.dma_address + prev.dma_len →
    s.curr_len + (rest.map DmaSeg.dma_len).sum < WORD →
    (∀ sg ∈ rest, sg.dma_address < WORD) →
    (pgsz_walk i s rest).mask = s.mask := by
  intro rest
  induction rest with
  | nil => intro prev i s _ _ _ _; rfl
  | cons x xs ih =>
    intro prev i s hc hsum hlen hal
    obtain ⟨hc1, hc2⟩ := hc
    have hx := hal x (by simp)
    simp only [List.map_cons, List.sum_cons] at hlen
    have hd : ¬ (s.curr_base + s.curr_len ≥ WORD ∨ s.curr_base + s.curr_len ≠ x.dma_address) := by
      rw [hsum, hc1]
      simp only [WORD] at *
      omega
    have hstep := pgsz_step_contig i x s hd
    unfold pgsz_walk
    rw [ih x (i + 1) (pgsz_step i x s) hc2
      (by rw [hstep]; simp only [WORD] at *; omega)
      (by rw [hstep]; simp only [WORD] at *; omega)
      (fun sg hsg => hal sg (by simp [hsg]))]
    rw [hstep]

/-- When the segments are fully contiguous with the virtual range, the walk
returns the mask it started with. -/
theorem pgsz_walk_fully_contiguous (umem : ib_umem) (pgsz_bitmap virt : Nat)
    (hv : virt < WORD) (hal : ∀ sg ∈ umem.dma, sg.dma_address < WORD)
    (hlen : (umem.dma.map DmaSeg.dma_len).sum < WORD)
    (hc : fully_contiguous umem virt) :
    (pgsz_walk 0 (pgsz_init umem pgsz_bitmap virt) umem.dma).mask
      = pgsz_bitmap &&& GENMASK (BITS_PER_LONG - 1) (span_bits umem.length virt) := by
  obtain ⟨hchain, first, hhead, hfirst⟩ := hc
  cases hdma : umem.dma with
  | nil => rw [hdma] at hhead; simp at hhead
  | cons x xs =>
    rw [hdma] at hhead hchain hal hlen
    simp only [List.head?_cons, Option.some.injEq] at hhead
    subst hhead
    simp only [List.map_cons, List.sum_cons] at hlen
    have hstep : (pgsz_step 0 x (pgsz_init umem pgsz_bitmap virt)).mask
          = (pgsz_init umem pgsz_bitmap virt).mask ∧
        (pgsz_step 0 x (pgsz_init umem pgsz_bitmap virt)).curr_base
          + (pgsz_step 0 x (pgsz_init umem pgsz_bitmap virt)).curr_len
          = x.dma_address + x.dma_len ∧
        (pgsz_step 0 x (pgsz_init umem pgsz_bitmap virt)).curr_len = x.dma_len := by
      by_cases hd : (pgsz_init umem pgsz_bitmap virt).curr_base
            + (pgsz_init umem pgsz_bitmap virt).curr_len ≥ WORD ∨
          (pgsz_init umem pgsz_bitmap virt).curr_base
            + (pgsz_init umem pgsz_bitmap virt).curr_len ≠ x.dma_address
      · rw [pgsz_step_disc 0 x _ hd]
        have hx0 : ((x.dma_address + (pgsz_init umem pgsz_bitmap virt).pgoff) % WORD)
            ^^^ (pgsz_init umem pgsz_bitmap virt).va = 0 := by
          have e1 : (pgsz_init umem pgsz_bitmap virt).pgoff = ib_umem_offset umem := rfl
          have e2 : (pgsz_init umem pgsz_bitmap virt).va = virt := rfl
          rw [e1, e2, hfirst, Nat.mod_eq_of_lt hv, Nat.xor_self]
        simp only [ne_eq, not_true_eq_false, if_false, hx0, Nat.or_zero, true_and]
        simp only [WORD] at *
        omega
      · rw [pgsz_step_contig 0 x _ hd]
        simp only [pgsz_init, WORD] at hd ⊢
        refine ⟨trivial, ?_, ?_⟩
        · simp only [WORD] at *
          omega
        · simp only [WORD] at *
          omega
    unfold pgsz_walk
    rw [pgsz_walk_contig xs x 1 _ hchain hstep.2.1 (by rw [hstep.2.2]; exact hlen)
      (fun sg hsg => hal sg (by simp [hsg])), hstep.1]
    rfl

/-- The result when the accumulated mask is the bitmap restricted to the page
sizes of at least `2 ^ b`: the smallest of those, or else the largest of the
bitmap. -/
theorem pgsz_result_restricted (bitmap b : Nat) (hb : bitmap < WORD) (hb63 : b ≤ 63) :
    (∀ k, bitmap.testBit k = true → b ≤ k →
      (∀ j, bitmap.testBit j = true → b ≤ j → k ≤ j) →
      pgsz_result bitmap (bitmap &&& GENMASK (BITS_PER_LONG - 1) b) = 2 ^ k) ∧
    ((∀ j, bitmap.testBit j = true → j < b) →
      ∀ k, bitmap.testBit k = true → (∀ j, bitmap.testBit j = true → j ≤ k) →
      pgsz_result bitmap (bitmap &&& GENMASK (BITS_PER_LONG - 1) b) = 2 ^ k) ∧
    (bitmap = 0 → pgsz_result bitmap (bitmap &&& GENMASK (BITS_PER_LONG - 1) b) = 0) := by
  have hbit : ∀ j, (bitmap &&& GENMASK (BITS_PER_LONG - 1) b).testBit j = true ↔
      bitmap.testBit j = true ∧ b ≤ j := by
    intro j
    rw [Nat.testBit_and, testBit_GENMASK _ _ _ (by decide) hb63]
    simp only [Bool.and_eq_true, decide_eq_true_eq, BITS_PER_LONG]
    constructor
    · exact fun h => ⟨h.1, h.2.1⟩
    · exact fun h => ⟨h.1, h.2, by have := testBit_word_lt _ _ hb h.1; omega⟩
  have hmlt : bitmap &&& GENMASK (BITS_PER_LONG - 1) b < WORD :=
    Nat.lt_of_le_of_lt Nat.and_le_left hb
  refine ⟨?_, ?_, ?_⟩
  · intro k hk hbk hmin
    have hmk : (bitmap &&& GENMASK (BITS_PER_LONG - 1) b).testBit k = true :=
      (hbit k).mpr ⟨hk, hbk⟩
    have hm0 : bitmap &&& GENMASK (BITS_PER_LONG - 1) b ≠ 0 := by
      intro h0
      rw [h0] at hmk
      simp at hmk
    obtain ⟨c1, c2⟩ := ctz_spec _ hm0 hmlt
    have hc : count_trailing_zeros (bitmap &&& GENMASK (BITS_PER_LONG - 1) b) = k := by
      have h1 := hmin _ ((hbit _).mp c1).1 ((hbit _).mp c1).2
      have h2 : ¬ k < count_trailing_zeros (bitmap &&& GENMASK (BITS_PER_LONG - 1) b) := by
        intro hlt
        rw [c2 k hlt] at hmk
        exact absurd hmk (by simp)
      omega
    unfold pgsz_result
    simp only [if_pos hm0, hc]
    have hk63 : k ≤ 63 := by
      have := testBit_word_lt _ _ hb hk
      omega
    have hrk : (bitmap &&& GENMASK k 0).testBit k = true := by
      rw [Nat.testBit_and, testBit_GENMASK _ _ _ hk63 (by decide), hk]
      simp
    have hr0 : bitmap &&& GENMASK k 0 ≠ 0 := by
      intro h0
      rw [h0] at hrk
      simp at hrk
    have hrlt : bitmap &&& GENMASK k 0 < WORD := Nat.lt_of_le_of_lt Nat.and_le_left hb
    rw [if_pos hr0]
    unfold rounddown_pow_of_two
    have h1 := ilog2_le_of_testBit _ k hrlt hrk
    have h2 := testBit_ilog2 _ hr0 hrlt
    rw [Nat.testBit_and, testBit_GENMASK _ _ _ hk63 (by decide)] at h2
    simp only [Bool.and_eq_true, decide_eq_true_eq] at h2
    have : ilog2 (bitmap &&& GENMASK k 0) = k := by omega
    rw [this]
  · intro hall k hk hmax
    have hm0 : bitmap &&& GENMASK (BITS_PER_LONG - 1) b = 0 := by
      apply Nat.eq_of_testBit_eq
      intro j
      rw [Nat.zero_testBit]
      cases hj : (bitmap &&& GENMASK (BITS_PER_LONG - 1) b).testBit j with
      | false => rfl
      | true =>
        have := (hbit j).mp hj
        have := hall j this.1
        omega
    have hb0 : bitmap ≠ 0 := by
      intro h0
      rw [h0] at hk
      simp at hk
    unfold pgsz_result
    simp only [hm0, ne_eq, not_true_eq_false, if_false, if_pos hb0]
    unfold rounddown_pow_of_two
    have h1 := ilog2_le_of_testBit _ k hb hk
    have h2 := hmax _ (testBit_ilog2 _ hb0 hb)
    have : ilog2 bitmap = k := by omega
    rw [this]
  · intro h0
    subst h0
    simp [pgsz_result]

/-- C6 (amended): for a non-ODP region whose DMA segments are fully contiguous
with the virtual range, and whose range stays on one side of address bit 63
(`b <= 63`, so that the shift in `GENMASK` is defined), `ib_umem_find_best_pgsz`
returns the smallest page size of the bitmap that is at least the natural
alignment `2 ^ b` of the range when there is one, otherwise the largest page
size of the bitmap, and `0` for an empty bitmap. -/
theorem ib_umem_find_best_pgsz_contiguous (umem : ib_umem) (pgsz_bitmap virt : Nat)
    (hodp : umem.is_odp = false) (hbm : pgsz_bitmap < WORD) (hv : virt < WORD)
    (hal : ∀ sg ∈ umem.dma, sg.dma_address < WORD)
    (hlen : (umem.dma.map DmaSeg.dma_len).sum < WORD)
    (hspan : span_bits umem.length virt ≤ 63)
    (hc : fully_contiguous umem virt) :
    (∀ k, pgsz_bitmap.testBit k = true → span_bits umem.length virt ≤ k →
      (∀ j, pgsz_bitmap.testBit j = true → span_bits umem.length virt ≤ j → k ≤ j) →
      ib_umem_find_best_pgsz umem pgsz_bitmap virt = 2 ^ k) ∧
    ((∀ j, pgsz_bitmap.testBit j = true → j < span_bits umem.length virt) →
      ∀ k, pgsz_bitmap.testBit k = true → (∀ j, pgsz_bitmap.testBit j = true → j ≤ k) →
      ib_umem_find_best_pgsz umem pgsz_bitmap virt = 2 ^ k) ∧
    (pgsz_bitmap = 0 → ib_umem_find_best_pgsz umem pgsz_bitmap virt = 0) := by
  have hres : ib_umem_find_best_pgsz umem pgsz_bitmap virt
      = pgsz_result pgsz_bitmap
          (pgsz_bitmap &&& GENMASK (BITS_PER_LONG - 1) (span_bits umem.length virt)) := by
    unfold ib_umem_find_best_pgsz
    simp only [hodp, Bool.false_eq_true, if_false]
    rw [pgsz_walk_fully_contiguous umem pgsz_bitmap virt hv hal hlen hc]
  rw [hres]
  exact pgsz_result_restricted pgsz_bitmap _ hbm hspan

/-- C6 as stated fails: two contiguous pages at virtual and bus address
0x201000, not 2M-aligned, with the page sizes 4K, 2M and 1G.  The natural
alignment is 16K and 4K is supported, yet the result is 2M. -/
theorem ib_umem_find_best_pgsz_contiguous_counterexample :
    fully_contiguous umem_8k 2101248 ∧
    natural_alignment umem_8k.length 2101248 = 16384 ∧
    bitmap_4k_2m_1g.testBit 12 = true ∧
    ib_umem_find_best_pgsz umem_8k bitmap_4k_2m_1g 2101248 = 2097152 ∧
    ¬ (ib_umem_find_best_pgsz umem_8k bitmap_4k_2m_1g 2101248
        ≤ natural_alignment umem_8k.length 2101248) := by
  refine ⟨⟨trivial, ⟨_, rfl, by decide⟩⟩, by decide, by decide, by decide, by decide⟩

/-- C6 (amended) at a concrete input: one page at virtual and bus address 4096;
4K is the smallest supported size of at least the natural alignment 4K. -/
theorem ib_umem_find_best_pgsz_contiguous_witness :
    fully_contiguous umem_4k 4096 ∧
    ib_umem_find_best_pgsz umem_4k bitmap_4k_2m_1g 4096 = 2 ^ 12 :=
  have hc : fully_contiguous umem_4k 4096 := ⟨trivial, ⟨_, rfl, by decide⟩⟩
  ⟨hc, (ib_umem_find_best_pgsz_contiguous umem_4k bitmap_4k_2m_1g 4096 rfl (by decide)
    (by decide) (by decide) (by decide) (by decide) hc).1 12 (by decide) (by decide) (by
      intro j hj hle
      have : span_bits umem_4k.length 4096 = 12 := by decide
      omega)⟩

theorem dvd_of_page_dvd (l n : Nat) (hl : l ≤ PAGE_SHIFT) (h : PAGE_SIZE ∣ n) : 2 ^ l ∣ n :=
  Nat.dvd_trans (Nat.pow_dvd_pow 2 hl) h

/-- With page-aligned segments and a cursor that sits at the offset `pgoff` of
its page, a step keeps the low `l ≤ PAGE_SHIFT` bits of the mask clear. -/
theorem pgsz_step_low_bits (l i : Nat) (sg : DmaSeg) (s : PgszState) (hl : l ≤ PAGE_SHIFT)
    (hm : 2 ^ l ∣ s.mask) (hva : s.va % PAGE_SIZE = s.pgoff) (hi : i ≠ 0 → s.pgoff = 0)
    (ha : sg.dma_address % PAGE_SIZE = 0) (hlen : sg.dma_len % PAGE_SIZE = 0) :
    2 ^ l ∣ (pgsz_step i sg s).mask ∧
    (pgsz_step i sg s).va % PAGE_SIZE = (pgsz_step i sg s).pgoff ∧
    (pgsz_step i sg s).pgoff = 0 := by
  have hva2 : (s.va + sg.dma_len + WORD - s.pgoff) % WORD % PAGE_SIZE = 0 := by
    simp only [WORD, PAGE_SIZE] at *
    omega
  by_cases hd : s.curr_base + s.curr_len ≥ WORD ∨ s.curr_base + s.curr_len ≠ sg.dma_address
  · rw [pgsz_step_disc i sg s hd]
    refine ⟨?_, hva2, rfl⟩
    have hx : 2 ^ l ∣ ((sg.dma_address + s.pgoff) % WORD) ^^^ s.va := by
      apply dvd_of_page_dvd l _ hl
      have : PAGE_SIZE = 2 ^ 12 := by decide
      rw [this, two_pow_dvd_xor]
      simp only [WORD, PAGE_SIZE] at *
      omega
    by_cases hi0 : i ≠ 0
    · simp only [if_pos hi0]
      have hv0 : 2 ^ l ∣ s.va := by
        apply dvd_of_page_dvd l _ hl
        rw [Nat.dvd_iff_mod_eq_zero, hva]
        exact hi hi0
      exact (two_pow_dvd_or _ _ _).mpr ⟨(two_pow_dvd_or _ _ _).mpr ⟨hm, hx⟩, hv0⟩
    · simp only [if_neg hi0]
      exact (two_pow_dvd_or _ _ _).mpr ⟨hm, hx⟩
  · rw [pgsz_step_contig i sg s hd]
    exact ⟨hm, hva2, rfl⟩

theorem pgsz_walk_low_bits (l : Nat) (hl : l ≤ PAGE_SHIFT) :
    ∀ (rest : List DmaSeg) (i : Nat) (s : PgszState),
      2 ^ l ∣ s.mask → s.va % PAGE_SIZE = s.pgoff → (i ≠ 0 → s.pgoff = 0) →
      (∀ sg ∈ rest, sg.dma_address % PAGE_SIZE = 0 ∧ sg.dma_len % PAGE_SIZE = 0) →
      2 ^ l ∣ (pgsz_walk i s rest).mask := by
  intro rest
  induction rest with
  | nil => intro i s hm _ _ _; exact hm
  | cons x xs ih =>
    intro i s hm hva hi hal
    obtain ⟨h1, h2, h3⟩ := pgsz_step_low_bits l i x s hl hm hva hi
      (hal x (by simp)).1 (hal x (by simp)).2
    exact ih (i + 1) _ h1 h2 (fun _ => h3) (fun sg hsg => hal sg (by simp [hsg]))

/-- C7 (amended): for a non-ODP region whose DMA segments have page-aligned
addresses and lengths, a `virt` with the same offset in its page as the region's
start address, and a bitmap with a bit at position `PAGE_SHIFT` or lower,
`ib_umem_find_best_pgsz` returns a non-zero page size. -/
theorem ib_umem_find_best_pgsz_nonzero (umem : ib_umem) (pgsz_bitmap virt k : Nat)
    (hodp : umem.is_odp = false) (hbm : pgsz_bitmap < WORD) (hv : virt < WORD)
    (hal : ∀ sg ∈ umem.dma, sg.dma_address % PAGE_SIZE = 0 ∧ sg.dma_len % PAGE_SIZE = 0)
    (hoff : virt % PAGE_SIZE = umem.address % PAGE_SIZE)
    (hk : pgsz_bitmap.testBit k = true) (hkp : k ≤ PAGE_SHIFT) :
    ib_umem_find_best_pgsz umem pgsz_bitmap virt ≠ 0 := by
  have hb0 : pgsz_bitmap ≠ 0 := by
    intro h0
    rw [h0] at hk
    simp at hk
  obtain ⟨l1, l2⟩ := ctz_spec pgsz_bitmap hb0 hbm
  have hlk : count_trailing_zeros pgsz_bitmap ≤ k := by
    by_contra hlt
    rw [l2 k (by omega)] at hk
    exact absurd hk (by simp)
  have hl : count_trailing_zeros pgsz_bitmap ≤ PAGE_SHIFT := Nat.le_trans hlk hkp
  have hinit : 2 ^ count_trailing_zeros pgsz_bitmap ∣ (pgsz_init umem pgsz_bitmap virt).mask := by
    rw [two_pow_dvd_iff_testBit]
    intro j hj
    simp only [pgsz_init, Nat.testBit_and, l2 j hj, Bool.false_and]
  have hfin := pgsz_walk_low_bits _ hl umem.dma 0 (pgsz_init umem pgsz_bitmap virt) hinit
    hoff (fun h => absurd rfl h) hal
  have hmlt := pgsz_walk_mask_lt umem.dma 0 (pgsz_init umem pgsz_bitmap virt)
    (pgsz_init_mask_lt umem pgsz_bitmap virt hbm) hv
  unfold ib_umem_find_best_pgsz
  simp only [hodp, Bool.false_eq_true, if_false]
  unfold pgsz_result
  by_cases hm0 : (pgsz_walk 0 (pgsz_init umem pgsz_bitmap virt) umem.dma).mask ≠ 0
  · simp only [if_pos hm0]
    obtain ⟨c1, _⟩ := ctz_spec _ hm0 hmlt
    have hle : count_trailing_zeros pgsz_bitmap
        ≤ count_trailing_zeros (pgsz_walk 0 (pgsz_init umem pgsz_bitmap virt) umem.dma).mask := by
      by_contra hlt
      rw [(two_pow_dvd_iff_testBit _ _).mp hfin _ (by omega)] at c1
      exact absurd c1 (by simp)
    have hbit : (pgsz_bitmap &&& GENMASK (count_trailing_zeros
        (pgsz_walk 0 (pgsz_init umem pgsz_bitmap virt) umem.dma).mask) 0).testBit
        (count_trailing_zeros pgsz_bitmap) = true := by
      rw [Nat.testBit_and, testBit_GENMASK _ _ _ (ctz_le _ hm0 hmlt) (by decide), l1]
      simp [hle]
    have hne : pgsz_bitmap &&& GENMASK (count_trailing_zeros
        (pgsz_walk 0 (pgsz_init umem pgsz_bitmap virt) umem.dma).mask) 0 ≠ 0 := by
      intro h0
      rw [h0] at hbit
      simp at hbit
    rw [if_pos hne]
    exact Nat.pos_iff_ne_zero.mp (Nat.two_pow_pos _)
  · simp only [if_neg hm0, if_pos hb0]
    exact Nat.pos_iff_ne_zero.mp (Nat.two_pow_pos _)

/-- C7 as stated fails: a driver that supports `PAGE_SIZE` asks for a `virt`
whose offset in its page differs from that of the pinned page; the result is
`0`. -/
theorem ib_umem_find_best_pgsz_nonzero_counterexample :
    umem_page.is_odp = false ∧
    (4096 : Nat).testBit PAGE_SHIFT = true ∧
    ib_umem_find_best_pgsz umem_page 4096 6144 = 0 := by
  refine ⟨rfl, by decide, by decide⟩

/-- C7 (amended) at a concrete input: two separate pages, `virt` at the same
offset `0x234` in its page as the region's start, 4K pages supported. -/
theorem ib_umem_find_best_pgsz_nonzero_witness :
    ib_umem_find_best_pgsz umem_straddle 4096 21044 = 4096 ∧
    ib_umem_find_best_pgsz umem_straddle 4096 21044 ≠ 0 :=
  ⟨by decide,
   ib_umem_find_best_pgsz_nonzero umem_straddle 4096 21044 12 rfl (by decide) (by decide)
     (by decide) (by decide) (by decide) (by decide)⟩

/-- C8: when `offset + length`, as an unbounded sum, exceeds the region's
length, `ib_umem_copy_from` returns `-EINVAL` without calling the scatter copy,
and the destination buffer is unchanged. -/
theorem ib_umem_copy_from_out_of_range (copy : List Nat → Nat → Nat → Nat × List Nat)
    (dst : List Nat) (umem : ib_umem) (offset length : Nat)
    (h : offset + length > umem.length) :
    ib_umem_copy_from copy dst umem offset length = (-EINVAL, dst, []) := by
  unfold ib_umem_copy_from
  have hc : offset > umem.length ∨ length > (umem.length + WORD - offset) % WORD := by
    simp only [WORD] at *
    omega
  rw [if_pos hc]

/-- C8 at a concrete input: 50 bytes from offset 60 of a region of 92 bytes. -/
theorem ib_umem_copy_from_out_of_range_witness :
    ib_umem_copy_from copy_sevens [1, 2, 3] (umem_of 0 92 []) 60 50 = (-EINVAL, [1, 2, 3], []) :=
  ib_umem_copy_from_out_of_range copy_sevens [1, 2, 3] (umem_of 0 92 []) 60 50 (by decide)

/-- C10 (amended): whenever `ib_umem_get` fails after charging the counter, the
amount subtracted from `pinned_vm` is the amount that was added, the page count
of the whole requested range, whatever the table held when the failure
occurred. -/
theorem ib_umem_get_unwind_refund (env : Env) (mm : mm_struct) (addr size : Nat) (access : Access)
    (fuel : Nat) (out : Outcome) (code : Int)
    (h : ib_umem_get env mm addr size access fuel = some out)
    (herr : out.result = UmemResult.err code)
    (hch : charged out.trace ≠ 0) :
    charged out.trace = ib_umem_num_pages (new_umem addr size access) ∧
    refunded out.trace = ib_umem_num_pages (new_umem addr size access) := by
  rcases ib_umem_get_inv env mm addr size access fuel out h with
    ⟨_, rfl⟩ | ⟨_, rfl | rfl | rfl | rfl | rfl | rfl | ⟨_, _, ret, ps, hloop, rfl⟩⟩
  · simp [charged] at hch
  · simp [charged, Event.charge] at hch
  · simp [charged, Event.charge] at hch
  · simp [charged, Event.charge] at hch
  · simp [charged, Event.charge, setup_trace] at hch
  · simp [charged, Event.charge, setup_trace] at hch
  · simp [charged, refunded, Event.charge, Event.refund, setup_trace]
  · obtain ⟨hc, hr⟩ := pin_loop_charged env _ fuel _ ret ps hloop
    have hc0 : charged ps.trace = ib_umem_num_pages (new_umem addr size access) := by
      rw [hc]; simp [pin_start, charged, Event.charge, setup_trace]
    have hr0 : refunded ps.trace = 0 := by
      rw [hr]; simp [pin_start, refunded, Event.refund, setup_trace]
    have key : ∀ (tr : List Event) (r : Int) (m : mm_struct),
        charged tr = ib_umem_num_pages (new_umem addr size access) → refunded tr = 0 →
        charged (umem_release_path { new_umem addr size access with sgl := ps.sgl } m tr r).trace
          = ib_umem_num_pages (new_umem addr size access) ∧
        refunded (umem_release_path { new_umem addr size access with sgl := ps.sgl } m tr r).trace
          = ib_umem_num_pages (new_umem addr size access) := by
      intro tr r m h1 h2
      simp only [umem_release_path, charged_append, refunded_append, h1, h2,
        (release_events_charged _ _).1, (release_events_charged _ _).2]
      simp [charged, refunded, Event.charge, Event.refund, ib_umem_num_pages, new_umem]
    unfold after_loop at herr ⊢
    by_cases h1 : ret ≠ 0
    · rw [if_pos h1]
      exact key _ _ _ hc0 hr0
    · rw [if_neg h1] at herr ⊢
      by_cases h2 : (env.dma_map ps.sgl).1 ≠ 0
      · simp only [if_pos h2]
        exact key _ _ _ (by rw [charged_append, hc0]; simp [charged, Event.charge])
          (by rw [refunded_append, hr0]; simp [refunded, Event.refund])
      · simp only [if_neg h2] at herr
        exact absurd herr (by simp)

/-- C10 as stated fails: the pin service fails on the third of four batches of
512 pages.  The table then holds the 1024 pages of the first two batches, and
the unwind subtracts all 2048 pages that were charged. -/
theorem ib_umem_get_unwind_refund_counterexample :
    ib_umem_get env_fail3 mm_zero 0 8388608 access_rw 4 = some out_fail3 ∧
    refunded out_fail3.trace = 2048 ∧
    (pin_loop env_fail3 false 4
        (pin_start 0 2048 (setup_trace ++ [Event.pinned_vm_add 2048]))).map
      (fun p => (p.1, table_pages p.2.sgl)) = some (-EFAULT, 1024) ∧
    refunded out_fail3.trace ≠ 1024 := by
  refine ⟨by decide, by decide, by decide, by decide⟩

/-- C10 (amended) at a concrete input: four pages in batches of two; the second
append fails with two pages in the table, and all four pages are refunded. -/
theorem ib_umem_get_unwind_refund_witness :
    ib_umem_get env_append_fail mm_zero 0 16384 access_rw 4 = some out_append_fail ∧
    out_append_fail.result = UmemResult.err (-ENOMEM) ∧
    refunded out_append_fail.trace = ib_umem_num_pages (new_umem 0 16384 access_rw) ∧
    refunded out_append_fail.trace = 4 :=
  have h : ib_umem_get env_append_fail mm_zero 0 16384 access_rw 4 = some out_append_fail := by
    decide
  ⟨h, rfl, (ib_umem_get_unwind_refund env_append_fail mm_zero 0 16384 access_rw 4
    out_append_fail (-ENOMEM) h rfl (by decide)).2, by decide⟩

/-! ### Block counts -/

/-- For a non-empty range the block count is the distance between the blocks of
the last and of the first byte, plus one. -/
theorem num_blocks_floor (virt length P : Nat) (hl : 0 < length) (hP : 0 < P) :
    num_blocks virt length P = (virt + length - 1) / P + 1 - virt / P := by
  unfold num_blocks
  have h : virt + length + P - 1 = (virt + length - 1) + P := by omega
  rw [h, Nat.add_div_right _ hP]

theorem num_blocks_pos (virt length P : Nat) (hl : 0 < length) (hP : 0 < P) :
    1 ≤ num_blocks virt length P := by
  rw [num_blocks_floor virt length P hl hP]
  have : virt / P ≤ (virt + length - 1) / P := Nat.div_le_div_right (by omega)
  omega

/-- Doubling the block size does not increase the block count. -/
theorem num_blocks_double (virt length P : Nat) (hl : 0 < length) (hP : 0 < P) :
    num_blocks virt length (P * 2) ≤ num_blocks virt length P := by
  rw [num_blocks_floor virt length P hl hP, num_blocks_floor virt length (P * 2) hl (by omega),
    ← Nat.div_div_eq_div_mul, ← Nat.div_div_eq_div_mul]
  have : virt / P ≤ (virt + length - 1) / P := Nat.div_le_div_right (by omega)
  omega

/-- A larger power-of-two block size needs at most as many blocks. -/
theorem num_blocks_mono (virt length j k : Nat) (hl : 0 < length) (hjk : j ≤ k) :
    num_blocks virt length (2 ^ k) ≤ num_blocks virt length (2 ^ j) := by
  obtain ⟨d, rfl⟩ := Nat.exists_eq_add_of_le hjk
  induction d with
  | zero => exact Nat.le_refl _
  | succ d ih =>
    have e : 2 ^ (j + (d + 1)) = 2 ^ (j + d) * 2 := by
      rw [← Nat.add_assoc, Nat.pow_succ]
    rw [e]
    exact Nat.le_trans (num_blocks_double virt length _ hl (Nat.two_pow_pos _))
      (ih (Nat.le_add_right _ _))

/-- Two numbers lie in the same block of size `2 ^ k` exactly when they differ
in bits below `k` only. -/
theorem div_two_pow_eq_iff_xor_lt (a b k : Nat) :
    a / 2 ^ k = b / 2 ^ k ↔ a ^^^ b < 2 ^ k := by
  constructor
  · intro h
    apply Nat.lt_pow_two_of_testBit
    intro i hi
    obtain ⟨d, rfl⟩ := Nat.exists_eq_add_of_le hi
    rw [Nat.testBit_xor, ← testBit_div_pow a k d, ← testBit_div_pow b k d, h]
    simp
  · intro h
    apply Nat.eq_of_testBit_eq
    intro d
    rw [testBit_div_pow, testBit_div_pow]
    have hlt : a ^^^ b < 2 ^ (k + d) :=
      Nat.lt_of_lt_of_le h (Nat.pow_le_pow_right (by decide) (Nat.le_add_right _ _))
    have := Nat.testBit_lt_two_pow hlt
    rw [Nat.testBit_xor] at this
    cases ha : a.testBit (k + d) <;> cases hb : b.testBit (k + d) <;> simp [ha, hb] at this ⊢

/-- A non-empty range fits in one block of size `2 ^ k` exactly when its first
and last byte differ in bits below `k` only. -/
theorem num_blocks_eq_one_iff (virt length k : Nat) (hl : 0 < length) :
    num_blocks virt length (2 ^ k) = 1 ↔ (virt + length - 1) ^^^ virt < 2 ^ k := by
  rw [num_blocks_floor virt length _ hl (Nat.two_pow_pos k), ← div_two_pow_eq_iff_xor_lt]
  have : virt / 2 ^ k ≤ (virt + length - 1) / 2 ^ k := Nat.div_le_div_right (by omega)
  omega

/-- Below `2 ^ bits_per x` lies `x`; a non-zero word `x` is below `2 ^ k` only
for `k` of at least `bits_per x`. -/
theorem bits_per_spec (x k : Nat) (hx : x < WORD) :
    (bits_per x ≤ k → x < 2 ^ k) ∧ (x ≠ 0 → x < 2 ^ k → bits_per x ≤ k) := by
  unfold bits_per
  by_cases h2 : x < 2
  · rw [if_pos h2]
    constructor
    · intro hk
      have : 2 ^ 1 ≤ 2 ^ k := Nat.pow_le_pow_right (by decide) hk
      omega
    · intro h0 hlt
      by_contra hk
      have hk0 : k = 0 := by omega
      subst hk0
      simp at hlt
      omega
  · rw [if_neg h2, ilog2_eq_log2 x hx]
    have h0 : x ≠ 0 := by omega
    constructor
    · intro hk
      exact (Nat.log2_lt h0).mp (by omega)
    · intro _ hlt
      have := (Nat.log2_lt h0).mpr hlt
      omega

/-- The result is the largest page size of the bitmap whose bit is not above the
lowest set bit of the accumulated mask. -/
theorem pgsz_result_largest (bitmap mask : Nat) (hb : bitmap < WORD) (hm : mask < WORD)
    (h : pgsz_result bitmap mask ≠ 0) :
    ∃ p, pgsz_result bitmap mask = 2 ^ p ∧ bitmap.testBit p = true ∧
      (mask ≠ 0 → p ≤ count_trailing_zeros mask ∧
        ∀ k, bitmap.testBit k = true → k ≤ count_trailing_zeros mask → k ≤ p) ∧
      (mask = 0 → ∀ k, bitmap.testBit k = true → k ≤ p) := by
  unfold pgsz_result at h ⊢
  by_cases h0 : mask ≠ 0
  · simp only [if_pos h0] at h ⊢
    by_cases hb0 : bitmap &&& GENMASK (count_trailing_zeros mask) 0 ≠ 0
    · rw [if_pos hb0]
      have hlt : bitmap &&& GENMASK (count_trailing_zeros mask) 0 < WORD :=
        Nat.lt_of_le_of_lt Nat.and_le_left hb
      have ht := testBit_ilog2 _ hb0 hlt
      rw [Nat.testBit_and, testBit_GENMASK _ _ _ (ctz_le mask h0 hm) (by decide)] at ht
      simp only [Bool.and_eq_true, decide_eq_true_eq] at ht
      refine ⟨_, rfl, ht.1, fun _ => ⟨ht.2.2, ?_⟩, fun hz => absurd hz h0⟩
      intro k hk hkc
      apply ilog2_le_of_testBit _ k hlt
      rw [Nat.testBit_and, testBit_GENMASK _ _ _ (ctz_le mask h0 hm) (by decide), hk]
      simp [hkc]
    · rw [if_neg hb0] at h
      exact absurd rfl h
  · simp only [if_neg h0] at h ⊢
    by_cases hb0 : bitmap ≠ 0
    · rw [if_pos hb0]
      exact ⟨_, rfl, testBit_ilog2 _ hb0 hb, fun hz => absurd hz h0,
        fun _ k hk => ilog2_le_of_testBit _ k hb hk⟩
    · rw [if_neg hb0] at h
      exact absurd rfl h

theorem testBit_or_of_dvd (k a b j : Nat) (hb : 2 ^ k ∣ b) (hj : j < k) :
    (a ||| b).testBit j = a.testBit j := by
  rw [Nat.testBit_or, (two_pow_dvd_iff_testBit k b).mp hb j hj, Bool.or_false]

/-- When `2 ^ k` is a valid page size, a step of the walk leaves the bits of
the mask below `k` as they are. -/
theorem pgsz_step_low_unchanged (virt pgoff k : Nat) (hk : k ≤ 64) (pre xs : List DmaSeg)
    (x : DmaSeg) (s : PgszState) (hinv : WalkInv virt pgoff pre s)
    (hx : x.dma_address < WORD)
    (hvalid : valid_mapping (pre ++ x :: xs) pgoff virt (2 ^ k)) :
    ∀ j, j < k → (pgsz_step pre.length x s).mask.testBit j = s.mask.testBit j := by
  intro j hj
  obtain ⟨hva, hvalt, hpgoff, hnil, hlast⟩ := hinv
  by_cases hd : s.curr_base + s.curr_len ≥ WORD ∨ s.curr_base + s.curr_len ≠ x.dma_address
  · have hget : (pre ++ x :: xs)[pre.length]? = some x := by
      rw [List.getElem?_append_right (Nat.le_refl _)]
      simp
    have hrun : is_run_start (pre ++ x :: xs) pre.length := by
      cases hg : pre.getLast? with
      | none =>
        left
        have : pre = [] := List.getLast?_eq_none_iff.mp hg
        rw [this]; rfl
      | some a =>
        right
        have hp : pre ≠ [] := by
          intro h0
          rw [h0] at hg
          simp at hg
        refine ⟨a, x, by rw [getElem?_pred_append pre _ hp, hg], hget, ?_⟩
        have := hlast a hg
        simp only [WORD] at *
        omega
    obtain ⟨v1, v2⟩ := hvalid pre.length x hget hrun
    rw [run_va_append _ _ _ _ _ (Nat.le_refl _), ← hva] at v1 v2
    have hX : 2 ^ k ∣ ((x.dma_address + s.pgoff) % WORD) ^^^ s.va := by
      rw [two_pow_dvd_xor, mod_word_mod _ _ hk, hpgoff]
      exact v1
    rw [pgsz_step_disc _ x s hd]
    by_cases hi : pre.length ≠ 0
    · simp only [if_pos hi]
      have hV : 2 ^ k ∣ s.va := Nat.dvd_of_mod_eq_zero (v2 hi)
      rw [testBit_or_of_dvd k _ _ j hV hj, testBit_or_of_dvd k _ _ j hX hj]
    · simp only [if_neg hi]
      rw [testBit_or_of_dvd k _ _ j hX hj]
  · rw [pgsz_step_contig _ x s hd]

/-- When `2 ^ k` is a valid page size, the walk leaves the bits of the mask
below `k` as they are. -/
theorem pgsz_walk_low_unchanged (virt pgoff k : Nat) (hk : k ≤ 64) (hpg : pgoff < PAGE_SIZE) :
    ∀ (rest pre : List DmaSeg) (s : PgszState),
      WalkInv virt pgoff pre s →
      s.curr_len + (rest.map DmaSeg.dma_len).sum < WORD →
      (∀ sg ∈ rest, sg.dma_address < WORD) →
      valid_mapping (pre ++ rest) pgoff virt (2 ^ k) →
      ∀ j, j < k → (pgsz_walk pre.length s rest).mask.testBit j = s.mask.testBit j := by
  intro rest
  induction rest with
  | nil => intro pre s _ _ _ _ j _; rfl
  | cons x xs ih =>
    intro pre s hinv hlen hal hvalid j hj
    have hlen' := hlen
    simp only [List.map_cons, List.sum_cons] at hlen'
    have hlen1 : s.curr_len + x.dma_len < WORD := by omega
    have hinv2 := WalkInv_step virt pgoff hpg pre x s hinv hlen1
    have hlen2 : (pgsz_step pre.length x s).curr_len + (xs.map DmaSeg.dma_len).sum < WORD := by
      have : (pgsz_step pre.length x s).curr_len ≤ s.curr_len + x.dma_len := by
        by_cases hd : s.curr_base + s.curr_len ≥ WORD ∨
            s.curr_base + s.curr_len ≠ x.dma_address
        · rw [pgsz_step_disc _ x s hd]
          simp only [WORD] at *
          omega
        · rw [pgsz_step_contig _ x s hd]
          simp only [WORD] at *
          omega
      omega
    have hassoc : pre ++ x :: xs = (pre ++ [x]) ++ xs := by simp
    have hvalid2 : valid_mapping ((pre ++ [x]) ++ xs) pgoff virt (2 ^ k) := by
      rw [← hassoc]; exact hvalid
    have hrec := ih (pre ++ [x]) _ hinv2 hlen2 (fun sg hsg => hal sg (by simp [hsg])) hvalid2 j hj
    simp only [List.length_append, List.length_singleton] at hrec
    unfold pgsz_walk
    rw [hrec]
    exact pgsz_step_low_unchanged virt pgoff k hk pre xs x s hinv (hal x (by simp)) hvalid j hj

theorem pgsz_step_mask_sup (i : Nat) (sg : DmaSeg) (s : PgszState) (j : Nat)
    (h : s.mask.testBit j = true) : (pgsz_step i sg s).mask.testBit j = true := by
  by_cases hd : s.curr_base + s.curr_len ≥ WORD ∨ s.curr_base + s.curr_len ≠ sg.dma_address
  · rw [pgsz_step_disc i sg s hd]
    by_cases hi : i ≠ 0
    · simp only [if_pos hi, Nat.testBit_or, h, Bool.true_or]
    · simp only [if_neg hi, Nat.testBit_or, h, Bool.true_or]
  · rw [pgsz_step_contig i sg s hd]
    exact h

/-- The walk only adds bits to the mask. -/
theorem pgsz_walk_mask_sup : ∀ (rest : List DmaSeg) (i : Nat) (s : PgszState) (j : Nat),
    s.mask.testBit j = true → (pgsz_walk i s rest).mask.testBit j = true := by
  intro rest
  induction rest with
  | nil => intro i s j h; exact h
  | cons x xs ih =>
    intro i s j h
    exact ih (i + 1) _ j (pgsz_step_mask_sup i x s j h)

/-- The mask before the walk holds the page sizes of the bitmap of at least
`2 ^ span_bits`, when the range stays on one side of bit 63. -/
theorem testBit_init_mask (umem : ib_umem) (pgsz_bitmap virt j : Nat) (hbm : pgsz_bitmap < WORD)
    (hspan : span_bits umem.length virt ≤ 63) :
    (pgsz_init umem pgsz_bitmap virt).mask.testBit j = true ↔
      pgsz_bitmap.testBit j = true ∧ span_bits umem.length virt ≤ j := by
  have e : (pgsz_init umem pgsz_bitmap virt).mask
      = pgsz_bitmap &&& GENMASK (BITS_PER_LONG - 1) (span_bits umem.length virt) := rfl
  rw [e, Nat.testBit_and, testBit_GENMASK _ _ _ (by decide) hspan]
  simp only [Bool.and_eq_true, decide_eq_true_eq, BITS_PER_LONG]
  constructor
  · exact fun h => ⟨h.1, h.2.1⟩
  · exact fun h => ⟨h.1, h.2, by have := testBit_word_lt _ _ hbm h.1; omega⟩

/-- For a range that does not wrap, the word whose bits are counted is the XOR
of the last and the first byte address. -/
theorem span_word_eq (virt length : Nat) (hl : 0 < length) (hw : virt + length ≤ WORD) :
    ((length + WORD - 1 + virt) % WORD) ^^^ virt = (virt + length - 1) ^^^ virt := by
  have : (length + WORD - 1 + virt) % WORD = virt + length - 1 := by
    simp only [WORD] at *
    omega
  rw [this]

/-- A page size of at least `2 ^ span_bits` covers the range in one block; for
a range of two bytes or more no smaller one does. -/
theorem num_blocks_one_iff_span (virt length k : Nat) (hl : 0 < length)
    (hw : virt + length ≤ WORD) :
    (span_bits length virt ≤ k → num_blocks virt length (2 ^ k) = 1) ∧
    (2 ≤ length → num_blocks virt length (2 ^ k) = 1 → span_bits length virt ≤ k) := by
  have hx : (virt + length - 1) ^^^ virt < WORD :=
    Nat.xor_lt_two_pow (by simp only [WORD] at *; omega) (by simp only [WORD] at *; omega)
  unfold span_bits
  rw [span_word_eq virt length hl hw, num_blocks_eq_one_iff virt length k hl]
  refine ⟨(bits_per_spec _ k hx).1, ?_⟩
  intro h2 hlt
  apply (bits_per_spec _ k hx).2 _ hlt
  intro h0
  have h1 : (virt + length - 1) ^^^ virt < 2 ^ 0 := by rw [h0]; decide
  have := (div_two_pow_eq_iff_xor_lt (virt + length - 1) virt 0).mpr h1
  simp at this
  omega

/-- C11 (amended): for a non-ODP region of machine-word DMA segments, mapped at
a `virt` at which its non-empty range does not wrap and stays on one side of
address bit 63 (`span_bits <= 63`, so that the shift in `GENMASK` is defined), a
non-zero result `P` of
`ib_umem_find_best_pgsz` is a page size of the bitmap, valid when the segment
addresses are page-aligned; among the page sizes of the bitmap that are valid
it needs the fewest blocks to cover `[virt, virt + length)`; it is at most every
page size of the bitmap that covers a range of two bytes or more in one block;
and when `P` itself needs more than one block it is the largest valid page size
of the bitmap. -/
theorem ib_umem_find_best_pgsz_min_blocks (umem : ib_umem) (pgsz_bitmap virt : Nat)
    (hodp : umem.is_odp = false) (hbm : pgsz_bitmap < WORD) (hv : virt < WORD)
    (hal : ∀ sg ∈ umem.dma, sg.dma_address < WORD)
    (hlen : (umem.dma.map DmaSeg.dma_len).sum < WORD)
    (hl : 0 < umem.length) (hw : virt + umem.length ≤ WORD)
    (hspan : span_bits umem.length virt ≤ 63)
    (hne : ib_umem_find_best_pgsz umem pgsz_bitmap virt ≠ 0) :
    (∃ p, ib_umem_find_best_pgsz umem pgsz_bitmap virt = 2 ^ p ∧
      pgsz_bitmap.testBit p = true) ∧
    ((∀ sg ∈ umem.dma, sg.dma_address % PAGE_SIZE = 0) →
      valid_mapping umem.dma (ib_umem_offset umem) virt
        (ib_umem_find_best_pgsz umem pgsz_bitmap virt)) ∧
    (∀ k, pgsz_bitmap.testBit k = true →
      valid_mapping umem.dma (ib_umem_offset umem) virt (2 ^ k) →
      num_blocks virt umem.length (ib_umem_find_best_pgsz umem pgsz_bitmap virt)
        ≤ num_blocks virt umem.length (2 ^ k)) ∧
    (2 ≤ umem.length → ∀ k, pgsz_bitmap.testBit k = true →
      num_blocks virt umem.length (2 ^ k) = 1 →
      ib_umem_find_best_pgsz umem pgsz_bitmap virt ≤ 2 ^ k) ∧
    (num_blocks virt umem.length (ib_umem_find_best_pgsz umem pgsz_bitmap virt) ≠ 1 →
      ∀ k, pgsz_bitmap.testBit k = true →
      valid_mapping umem.dma (ib_umem_offset umem) virt (2 ^ k) →
      2 ^ k ≤ ib_umem_find_best_pgsz umem pgsz_bitmap virt) := by
  have hres : ib_umem_find_best_pgsz umem pgsz_bitmap virt
      = pgsz_result pgsz_bitmap (pgsz_walk 0 (pgsz_init umem pgsz_bitmap virt) umem.dma).mask := by
    unfold ib_umem_find_best_pgsz
    simp only [hodp, Bool.false_eq_true, if_false]
  rw [hres] at hne ⊢
  have hmlt := pgsz_walk_mask_lt umem.dma 0 (pgsz_init umem pgsz_bitmap virt)
    (pgsz_init_mask_lt umem pgsz_bitmap virt hbm) hv
  have hpg : ib_umem_offset umem < PAGE_SIZE := Nat.mod_lt _ (by decide)
  obtain ⟨p, hp, hpb, hpnz, hpz⟩ := pgsz_result_largest pgsz_bitmap _ hbm hmlt hne
  rw [hp]
  -- a set bit of the final mask bounds the lowest set bit, hence `p`
  have hp_le : ∀ k, (pgsz_walk 0 (pgsz_init umem pgsz_bitmap virt) umem.dma).mask.testBit k
      = true → p ≤ k := by
    intro k hk
    have hm0 : (pgsz_walk 0 (pgsz_init umem pgsz_bitmap virt) umem.dma).mask ≠ 0 := by
      intro h0
      rw [h0] at hk
      simp at hk
    have hc := (ctz_spec _ hm0 hmlt).2
    have h1 := (hpnz hm0).1
    by_contra hlt
    have := hc k (by omega)
    rw [this] at hk
    exact absurd hk (by simp)
  -- a valid page size of the bitmap is at most `p`, unless `p` covers the range
  have hA : ∀ k, pgsz_bitmap.testBit k = true →
      valid_mapping umem.dma (ib_umem_offset umem) virt (2 ^ k) →
      k ≤ p ∨ span_bits umem.length virt ≤ p := by
    intro k hk hvalid
    by_cases hkp : k ≤ p
    · exact Or.inl hkp
    right
    by_cases hm0 : (pgsz_walk 0 (pgsz_init umem pgsz_bitmap virt) umem.dma).mask = 0
    · exact absurd (hpz hm0 k hk) hkp
    obtain ⟨c1, _⟩ := ctz_spec _ hm0 hmlt
    obtain ⟨_, hmax⟩ := hpnz hm0
    have hck : count_trailing_zeros
        (pgsz_walk 0 (pgsz_init umem pgsz_bitmap virt) umem.dma).mask < k := by
      by_contra hge
      exact hkp (hmax k hk (by omega))
    have hk64 : k ≤ 64 := Nat.le_of_lt (testBit_word_lt _ _ hbm hk)
    have hlow := pgsz_walk_low_unchanged virt (ib_umem_offset umem) k hk64 hpg umem.dma []
      (pgsz_init umem pgsz_bitmap virt) (WalkInv_init umem pgsz_bitmap virt hv)
      (by simpa [pgsz_init] using hlen) hal (by simpa using hvalid) _ hck
    simp only [List.length_nil] at hlow
    rw [hlow] at c1
    obtain ⟨hcb, hcs⟩ := (testBit_init_mask umem pgsz_bitmap virt _ hbm hspan).mp c1
    have := hmax _ hcb (Nat.le_refl _)
    omega
  refine ⟨⟨p, rfl, hpb⟩, ?_, ?_, ?_, ?_⟩
  · intro haligned
    have hdvd : 2 ^ p ∣ (pgsz_walk 0 (pgsz_init umem pgsz_bitmap virt) umem.dma).mask := by
      rw [two_pow_dvd_iff_testBit]
      intro j hj
      cases hb : (pgsz_walk 0 (pgsz_init umem pgsz_bitmap virt) umem.dma).mask.testBit j with
      | false => rfl
      | true => have := hp_le j hb; omega
    have hp64 : p ≤ 64 := Nat.le_of_lt (testBit_word_lt _ _ hbm hpb)
    intro i b hb hrun
    have := pgsz_walk_valid virt (ib_umem_offset umem) p hp64 hpg umem.dma []
      (pgsz_init umem pgsz_bitmap virt) (WalkInv_init umem pgsz_bitmap virt hv)
      (by simpa [pgsz_init] using hlen) (fun sg hsg => ⟨hal sg hsg, haligned sg hsg⟩) hdvd
      i b (Nat.zero_le _) (by simpa using hb) (by simpa using hrun)
    simpa using this
  · intro k hk hvalid
    rcases hA k hk hvalid with h | h
    · exact num_blocks_mono virt umem.length k p hl h
    · rw [(num_blocks_one_iff_span virt umem.length p hl hw).1 h]
      exact num_blocks_pos virt umem.length _ hl (Nat.two_pow_pos k)
  · intro h2 k hk hone
    have hs := (num_blocks_one_iff_span virt umem.length k hl hw).2 h2 hone
    have hinit := (testBit_init_mask umem pgsz_bitmap virt k hbm hspan).mpr ⟨hk, hs⟩
    have := hp_le k (pgsz_walk_mask_sup umem.dma 0 _ k hinit)
    exact Nat.pow_le_pow_right (by decide) this
  · intro hmore k hk hvalid
    rcases hA k hk hvalid with h | h
    · exact Nat.pow_le_pow_right (by decide) h
    · exact absurd ((num_blocks_one_iff_span virt umem.length p hl hw).1 h) hmore

/-- C11 as stated fails: two pages at virtual address 0x3000 and bus address
0x7000, every page size from 4K supported.  The result is 16K, with which the
range needs two blocks; 4K is supported and valid, needs two blocks as well, and
is smaller. -/
theorem ib_umem_find_best_pgsz_min_blocks_counterexample :
    umem_tie.is_odp = false ∧
    ib_umem_find_best_pgsz umem_tie bitmap_from_4k 12288 = 16384 ∧
    bitmap_from_4k.testBit 12 = true ∧
    valid_mapping umem_tie.dma (ib_umem_offset umem_tie) 12288 (2 ^ 12) ∧
    num_blocks 12288 umem_tie.length (2 ^ 12) = num_blocks 12288 umem_tie.length 16384 ∧
    2 ^ 12 < 16384 := by
  refine ⟨rfl, by decide, by decide, ?_, by decide, by decide⟩
  intro i b hb _
  cases i with
  | zero =>
    simp only [umem_tie, umem_of, List.getElem?_cons_zero, Option.some.injEq] at hb
    subst hb
    exact ⟨by decide, fun h => absurd rfl h⟩
  | succ i =>
    simp [umem_tie, umem_of] at hb

/-- C11 (amended) at a concrete input: four pages in two separate runs of two,
page sizes 4K, 8K and 16K supported; the result 8K needs the fewest blocks among
the valid supported sizes. -/
theorem ib_umem_find_best_pgsz_min_blocks_witness :
    ib_umem_find_best_pgsz umem_two_runs 28672 0 = 8192 ∧
    ∀ k, (28672 : Nat).testBit k = true →
      valid_mapping umem_two_runs.dma (ib_umem_offset umem_two_runs) 0 (2 ^ k) →
      num_blocks 0 umem_two_runs.length (ib_umem_find_best_pgsz umem_two_runs 28672 0)
        ≤ num_blocks 0 umem_two_runs.length (2 ^ k) :=
  ⟨by decide,
   (ib_umem_find_best_pgsz_min_blocks umem_two_runs 28672 0 rfl (by decide) (by decide)
     (by decide) (by decide) (by decide) (by decide) (by decide) (by decide)).2.2.1⟩

end Umem
